import Mathlib

/-!
A shallow embedding of the structural object-manipulation toolkit in
`lib/index.js` (clone, merge, applyToDefaults, contain) over an explicit
heap of object graphs.

Modelled universe (restrictions are documented at each definition):
* primitives: `null`, `undefined`, booleans, integer numbers, strings
  (floating point, `NaN` and symbols are outside the model);
* objects: plain records (string-keyed, enumerable, plain value
  properties), dense arrays, `Date` (by timestamp), `Buffer` (by bytes)
  and `RegExp` (by source text); `Set`/`Map`/weak containers, functions,
  accessor properties and symbol keys are outside the model;
* a record carries the one bit of its prototype the code inspects during
  cloning: whether `proto.isImmutable` is truthy.

The heap is an arena: `Heap := List Obj`, an address is an index, and
allocation appends at the end, so reference identity is address equality.
-/

/-- Decidable equality for `Except`, so concrete runs of the engines can
be checked by `decide`. -/
instance {ε α : Type} [DecidableEq ε] [DecidableEq α] : DecidableEq (Except ε α) := fun x y =>
  match x, y with
  | .error e, .error f =>
    if h : e = f then .isTrue (h ▸ rfl) else .isFalse (fun c => h (Except.error.inj c))
  | .error _, .ok _ => .isFalse (fun c => Except.noConfusion c)
  | .ok _, .error _ => .isFalse (fun c => Except.noConfusion c)
  | .ok a, .ok b =>
    if h : a = b then .isTrue (h ▸ rfl) else .isFalse (fun c => h (Except.ok.inj c))

namespace Hoek


/-- A JavaScript primitive value (restricted: integer numbers only). -/
inductive Prim where
  | null
  | undef
  | bool (b : Bool)
  | num (n : Int)
  | str (s : String)
deriving DecidableEq, Repr

/-- A JavaScript value: a primitive or a reference into the heap. -/
inductive Val where
  | prim (p : Prim)
  | ref (a : Nat)
deriving DecidableEq, Repr

/-- A heap object.  `record immut fields` is a plain object whose
prototype chain declares a truthy `isImmutable` iff `immut`; `arr` is a
dense array; `date`, `buffer`, `regex` carry the payload the code
observes. -/
inductive Obj where
  | record (immut : Bool) (fields : List (String × Val))
  | arr (elems : List Val)
  | date (t : Int)
  | buffer (bytes : List Nat)
  | regex (src : String)
deriving DecidableEq, Repr

/-- The heap: an arena of objects; an address is an index into the list. -/
abbrev Heap := List Obj

/-- JavaScript truthiness of a primitive. -/
def Prim.truthy : Prim → Bool
  | .null => false
  | .undef => false
  | .bool b => b
  | .num n => n != 0
  | .str s => s ≠ ""

/-- JavaScript truthiness of a value (every object reference is truthy). -/
def Val.truthy : Val → Bool
  | .prim p => p.truthy
  | .ref _ => true

/-- `typeof v === 'object'` — true for references and for `null`. -/
def Val.isObjTypeof : Val → Bool
  | .prim .null => true
  | .prim _ => false
  | .ref _ => true

/-- Whether a value is a reference. -/
def Val.isRef : Val → Bool
  | .prim _ => false
  | .ref _ => true

/-- Whether a value is a primitive. -/
def Val.isPrim : Val → Bool
  | .prim _ => true
  | .ref _ => false

/-- Whether an object is an array. -/
def Obj.isArr : Obj → Bool
  | .arr _ => true
  | _ => false

/-- The `isImmutable` bit of an object (false for non-records). -/
def Obj.immutFlag : Obj → Bool
  | .record immut _ => immut
  | _ => false

/-- The reference values held directly by an object (record field
values, array elements; the special kinds hold none). -/
def Obj.refsOf : Obj → List Val
  | .record _ fs => fs.map (·.2)
  | .arr es => es
  | _ => []

/-- Look up an own field of a record field list. -/
def getField : List (String × Val) → String → Option Val
  | [], _ => none
  | (k', v') :: rest, k => if k' = k then some v' else getField rest k

/-- JavaScript property assignment on a field list: an existing key is
updated in place (insertion order kept), a new key is appended. -/
def setFields : List (String × Val) → String → Val → List (String × Val)
  | [], k, v => [(k, v)]
  | (k', v') :: rest, k, v =>
      if k' = k then (k, v) :: rest else (k', v') :: setFields rest k v

/-- `Array.isArray(v)` over the heap. -/
def isArrayVal (h : Heap) : Val → Bool
  | .ref a => (h[a]?).elim false Obj.isArr
  | .prim _ => false

/-- Plain property read `base[seg]` (no numeric index wrapping): reading a
property of a primitive yields `undefined` (reads of `null`/`undefined`
properties, which throw, are handled at the call sites that can reach
them).  On arrays a canonical decimal segment reads the element, and
`"length"` reads the length; other segments read `undefined`
(string-keyed extra properties on arrays are outside the model). -/
def getProp (h : Heap) : Val → String → Val
  | .prim _, _ => .prim .undef
  | .ref a, seg =>
    match h[a]? with
    | some (.record _ fs) => (getField fs seg).getD (.prim .undef)
    | some (.arr es) =>
        match seg.toNat? with
        | some i => (es[i]?).getD (.prim .undef)
        | none => if seg = "length" then .prim (.num es.length) else .prim .undef
    | _ => (.prim .undef : Val)

/-- Plain property write `base[seg] = v`.  Fails (`none`, modelling a
strict-mode `TypeError` or an out-of-model behaviour) when the base is a
primitive, a dangling reference, a special-kind object, or an array
addressed by a non-index or out-of-range segment. -/
def setProp (h : Heap) : Val → String → Val → Option Heap
  | .prim _, _, _ => none
  | .ref a, seg, v =>
    match h[a]? with
    | some (.record immut fs) => some (h.set a (.record immut (setFields fs seg v)))
    | some (.arr es) =>
        match seg.toNat? with
        | some i => if i < es.length then some (h.set a (.arr (es.set i v))) else none
        | none => none
    | _ => none

/-- The `shallow` traversal option: absent/falsy, literally `true`, or a
list of key paths.  Paths are modelled in the array form the code
accepts (`Array.isArray(key) ? key : key.split('.')`), i.e. already
split into segments. -/
inductive Shallow where
  | no
  | top
  | keys (ks : List (List String))
deriving DecidableEq, Repr

/-- The options record recognised by clone / merge / applyToDefaults.
`none` in an `Option Bool` field models an absent property (the code
distinguishes absent from present via defaulting expressions). -/
structure Options where
  shallow : Shallow := .no
  prototype : Bool := true
  symbols : Bool := true
  nullOverride : Option Bool := none
  mergeArrays : Option Bool := none
deriving DecidableEq, Repr

/-- `exports.reach(obj, chain)` restricted to the default options used
by `internals.store` (no separator/strict/default/iterables/functions
options; segments are canonical decimals when used as array indices).
A missing segment, or a read off a primitive, yields `undefined`
(`ref = options.default; break`). -/
def reach (h : Heap) : Val → List String → Val
  | v, [] => v
  | v, seg :: rest =>
    if v.truthy = false then .prim .undef
    else
      let v' :=
        match v with
        | .ref a =>
          match h[a]? with
          | some (.arr es) =>
              match seg.toInt? with
              | some n =>
                  let i : Int := if n < 0 then (es.length : Int) + n else n
                  if hn : 0 ≤ i ∧ i.toNat < es.length then es[i.toNat] else .prim .undef
              | none => if seg = "length" then .prim (.num es.length) else .prim .undef
          | _ => getProp h (.ref a) seg
        | .prim _ => .prim .undef
      if v' = .prim .undef then .prim .undef else reach h v' rest

/-- `internals.reachSet(obj, key, value)`: walk the path with plain
reads and assign at the last segment.  `none` models the `TypeError`
raised when the walk reads a property of `null`/`undefined` or the
final assignment hits a non-writable base (see `setProp`). -/
def reachSet (h : Heap) : Val → List String → Val → Option Heap
  | _, [], _ => some h
  | v, seg :: rest, w =>
    match rest with
    | [] => setProp h v seg w
    | _ :: _ =>
      match v with
      | .prim .undef => none
      | .prim .null => none
      | v' => reachSet h (getProp h v' seg) rest w

/-- `internals.store(source, keys)`: for each key path whose reached
value is object-typed (`typeof === 'object'`, which includes `null`;
functions are outside the model), capture it into storage and detach
the path by assigning `undefined`.  Storage keeps insertion order (the
code's `Map` keyed by the distinct key arrays). -/
def store (h : Heap) (source : Val) : List (List String) → Option (Heap × List (List String × Val))
  | [] => some (h, [])
  | k :: ks =>
    let value := reach h source k
    if value.isObjTypeof then
      match reachSet h source k (.prim .undef) with
      | none => none
      | some h' =>
        match store h' source ks with
        | none => none
        | some (h'', st) => some (h'', (k, value) :: st)
    else store h source ks

/-- `internals.restore(copy, source, storage)`: reattach each captured
value at its path on both the copy and the source, in storage order. -/
def restore (h : Heap) (copy source : Val) : List (List String × Val) → Option Heap
  | [] => some h
  | (k, v) :: st =>
    match reachSet h copy k v with
    | none => none
    | some h1 =>
      match reachSet h1 source k v with
      | none => none
      | some h2 => restore h2 copy source st

/-- Identity-keyed lookup in the `_seen` map (`seen.get(obj)`). -/
def lookupSeen : List (Nat × Nat) → Nat → Option Nat
  | [], _ => none
  | (x, y) :: rest, a => if x = a then some y else lookupSeen rest a

/-- The result type threaded by `clone`: heap, produced value, and the
(shared, mutated-in-place) `_seen` map. -/
abbrev CloneRes := Except String (Heap × Val × Option (List (Nat × Nat)))

mutual

/-- `exports.clone(obj, options, _seen)`.  Fuel models the call stack:
every recursive step (including loop steps) decrements it, and `FUEL`
stands for non-termination / stack overflow, never for a JS behaviour.
`TypeError` models the exceptions the shallow-path machinery can raise;
`ModelDanglingRef` / `ModelWrite` are unreachable on well-formed heaps.
The `Set`/`Map` branches (`internals.needsProtoHack`) and accessor /
symbol properties are outside the modelled universe. -/
def clone : Nat → Heap → Val → Options → Option (List (Nat × Nat)) → CloneRes
  | 0, _, _, _, _ => .error "FUEL"
  | fuel + 1, h, v, opts, seen0 =>
    match v with
    | .prim p => .ok (h, .prim p, seen0)
    | .ref a =>
      match opts.shallow with
      | .keys ks =>
        -- internals.cloneWithShallow: detach the listed paths, deep
        -- clone the rest, reattach on both the copy and the source.
        match store h (.ref a) ks with
        | none => .error "TypeError"
        | some (h1, storage) =>
          match clone fuel h1 (.ref a) { opts with shallow := .no } none with
          | .error e => .error e
          | .ok (h2, copy, _) =>
            match restore h2 copy (.ref a) storage with
            | none => .error "TypeError"
            | some h3 => .ok (h3, copy, seen0)
      | .top =>
        -- options.shallow === true: children are copied by identity and
        -- the seen map stays null (no registration, no lookup).
        cloneDispatch fuel h a opts seen0 true
      | .no =>
        let m := (seen0.getD [])
        match lookupSeen m a with
        | some tgt => .ok (h, .ref tgt, some m)
        | none => cloneDispatch fuel h a opts (some m) false
termination_by structural fuel _ _ _ _ => fuel

/-- The `baseProto` switch of `exports.clone` plus the property-copy
loop, for a source object that passed the shallow/seen preamble.
`sTop` records whether `clone` was rebound to the identity
(`options.shallow === true`). -/
def cloneDispatch : Nat → Heap → Nat → Options → Option (List (Nat × Nat)) → Bool → CloneRes
  | 0, _, _, _, _, _ => .error "FUEL"
  | fuel + 1, h, a, opts, seen, sTop =>
    match h[a]? with
    | none => .error "ModelDanglingRef"
    | some (.buffer bs) => .ok (h ++ [.buffer bs], .ref h.length, seen)
    | some (.date t) => .ok (h ++ [.date t], .ref h.length, seen)
    | some (.regex s) => .ok (h ++ [.regex s], .ref h.length, seen)
    | some (.arr es) =>
      let n := h.length
      let h1 := h ++ [.arr []]
      let seen1 := seen.map (fun m => (a, n) :: m)
      match cloneElems fuel h1 n es opts seen1 sTop with
      | .error e => .error e
      | .ok (h2, seen2) => .ok (h2, .ref n, seen2)
    | some (.record immut fs) =>
      -- default branch: prototype preservation and the immutability
      -- short-circuit happen only while options.prototype !== false.
      if opts.prototype ∧ immut then .ok (h, .ref a, seen)
      else
        let n := h.length
        let h1 := h ++ [.record (if opts.prototype then immut else false) []]
        let seen1 := seen.map (fun m => (a, n) :: m)
        match cloneFields fuel h1 n a (fs.map (·.1)) opts seen1 sTop with
        | .error e => .error e
        | .ok (h2, seen2) => .ok (h2, .ref n, seen2)
termination_by structural fuel _ _ _ _ _ => fuel

/-- The key loop of `exports.clone` over a record's own keys: each value
is cloned (or copied by identity when `sTop`) and defined on the fresh
target `n`. -/
def cloneFields : Nat → Heap → Nat → Nat → List String → Options → Option (List (Nat × Nat)) → Bool → Except String (Heap × Option (List (Nat × Nat)))
  | 0, _, _, _, _, _, _, _ => .error "FUEL"
  | _ + 1, h, _, _, [], _, seen, _ => .ok (h, seen)
  | fuel + 1, h, n, a, k :: ks, opts, seen, sTop =>
    let value := getProp h (.ref a) k
    match (if sTop then .ok (h, value, seen) else clone fuel h value opts seen : CloneRes) with
    | .error e => .error e
    | .ok (h1, cv, seen1) =>
      match setProp h1 (.ref n) k cv with
      | none => .error "ModelWrite"
      | some h2 => cloneFields fuel h2 n a ks opts seen1 sTop
termination_by structural fuel _ _ _ _ _ _ _ => fuel

/-- The index loop of `exports.clone` over a (dense) array's elements:
each element is cloned (or copied by identity when `sTop`) and appended
to the fresh target `n`; the final `newObj.length = obj.length` is a
no-op on dense arrays. -/
def cloneElems : Nat → Heap → Nat → List Val → Options → Option (List (Nat × Nat)) → Bool → Except String (Heap × Option (List (Nat × Nat)))
  | 0, _, _, _, _, _, _ => .error "FUEL"
  | _ + 1, h, _, [], _, seen, _ => .ok (h, seen)
  | fuel + 1, h, n, e :: es, opts, seen, sTop =>
    match (if sTop then .ok (h, e, seen) else clone fuel h e opts seen : CloneRes) with
    | .error er => .error er
    | .ok (h1, cv, seen1) =>
      match h1[n]? with
      | some (.arr cur) => cloneElems fuel (h1.set n (.arr (cur ++ [cv]))) n es opts seen1 sTop
      | _ => .error "ModelWrite"
termination_by structural fuel _ _ _ _ _ _ => fuel

end

/-- `value instanceof Date || Buffer.isBuffer(value) || value instanceof RegExp`. -/
def isSpecial (h : Heap) : Val → Bool
  | .ref a =>
    match h[a]? with
    | some (.date _) => true
    | some (.buffer _) => true
    | some (.regex _) => true
    | _ => false
  | .prim _ => false

/-- `Object.assign({ nullOverride: true, mergeArrays: true }, options)`. -/
def resolveMergeOpts (o : Options) : Options :=
  { o with nullOverride := some (o.nullOverride.getD true),
           mergeArrays := some (o.mergeArrays.getD true) }

/-- The own enumerable keys of a merge source (`internals.keys`):
record field names; dates and regexes have none; byte buffers (whose
index keys JS would expose) are outside the modelled universe. -/
def sourceKeys : Obj → List String
  | .record _ fs => fs.map (·.1)
  | _ => []

mutual

/-- `exports.merge(target, source, options)`.  Fuel models the call
stack (the source has no cycle protection, and `target === source`
array merges with `mergeArrays` loop forever; both surface as `FUEL`).
Error strings are the source's assertion messages; `Model…` errors mark
situations outside the modelled universe or unreachable on well-formed
heaps. -/
def merge : Nat → Heap → Val → Val → Options → Except String (Heap × Val)
  | 0, _, _, _, _ => .error "FUEL"
  | fuel + 1, h, target, source, opts0 =>
    if ¬ (target.truthy ∧ target.isObjTypeof) then
      .error "Invalid target value: must be an object"
    else if ¬ (source = .prim .null ∨ source = .prim .undef ∨ source.isObjTypeof) then
      .error "Invalid source value: must be null, undefined, or an object"
    else if source.truthy = false then .ok (h, target)
    else
      let opts := resolveMergeOpts opts0
      match source, target with
      | .ref s, .ref t =>
        (match h[s]? with
          | none => .error "ModelDanglingRef"
          | some (.arr _) =>
            if isArrayVal h (.ref t) = false then .error "Cannot merge array onto an object"
            else
              let h1 :=
                if opts.mergeArrays.getD true then h
                else match h[t]? with
                  | some (.arr _) => h.set t (.arr [])
                  | _ => h
              match mergeArrLoop fuel h1 t s 0 opts with
              | .error e => .error e
              | .ok h2 => .ok (h2, .ref t)
          | some o =>
            match mergeKeys fuel h t s (sourceKeys o) opts with
            | .error e => .error e
            | .ok h2 => .ok (h2, .ref t))
      | _, _ => .error "ModelUnreachable"
termination_by structural fuel _ _ _ _ => fuel

/-- The key loop of `exports.merge` for a non-array source: the key
list is the `Reflect.ownKeys` snapshot, values are re-read from the
live heap; `__proto__` is always skipped (every modelled field is
enumerable). -/
def mergeKeys : Nat → Heap → Nat → Nat → List String → Options → Except String Heap
  | 0, _, _, _, _, _ => .error "FUEL"
  | _ + 1, h, _, _, [], _ => .ok h
  | fuel + 1, h, t, s, key :: keys, opts =>
    if key = "__proto__" then mergeKeys fuel h t s keys opts
    else
      let value := getProp h (.ref s) key
      if value.truthy ∧ value.isObjTypeof then
        let tv := getProp h (.ref t) key
        if ¬ tv.truthy ∨ ¬ tv.isObjTypeof ∨ isArrayVal h tv ≠ isArrayVal h value ∨ isSpecial h value then
          match clone fuel h value { symbols := opts.symbols } none with
          | .error e => .error e
          | .ok (h1, cv, _) =>
            match setProp h1 (.ref t) key cv with
            | none => .error "ModelWrite"
            | some h2 => mergeKeys fuel h2 t s keys opts
        else
          match merge fuel h tv value opts with
          | .error e => .error e
          | .ok (h1, _) => mergeKeys fuel h1 t s keys opts
      else
        if value ≠ .prim .null ∧ value ≠ .prim .undef then
          match setProp h (.ref t) key value with
          | none => .error "ModelWrite"
          | some h1 => mergeKeys fuel h1 t s keys opts
        else if opts.nullOverride.getD true then
          match setProp h (.ref t) key value with
          | none => .error "ModelWrite"
          | some h1 => mergeKeys fuel h1 t s keys opts
        else mergeKeys fuel h t s keys opts
termination_by structural fuel _ _ _ _ _ => fuel

/-- The element loop of `exports.merge` for an array source: the loop
bound `i < source.length` and `source[i]` are re-read from the live
heap each iteration (so a `target === source` append loops forever),
and each element is pushed as a deep clone. -/
def mergeArrLoop : Nat → Heap → Nat → Nat → Nat → Options → Except String Heap
  | 0, _, _, _, _, _ => .error "FUEL"
  | fuel + 1, h, t, s, i, opts =>
    match h[s]? with
    | some (.arr selems) =>
      match selems[i]? with
      | none => .ok h
      | some v =>
        match clone fuel h v { symbols := opts.symbols } none with
        | .error e => .error e
        | .ok (h1, cv, _) =>
          match h1[t]? with
          | some (.arr telems) => mergeArrLoop fuel (h1.set t (.arr (telems ++ [cv]))) t s (i + 1) opts
          | _ => .error "ModelWrite"
    | _ => .error "ModelWrite"
termination_by structural fuel _ _ _ _ _ => fuel

end

/-- `exports.applyToDefaults(defaults, source, options)`: `null` for a
falsy source, a plain deep clone of the defaults for `source === true`,
otherwise clone-then-merge with `mergeArrays:false`; the plain path
passes `nullOverride` defaulted to `false`, the shallow path hard-codes
`nullOverride:false`. -/
def applyToDefaults : Nat → Heap → Val → Val → Options → Except String (Heap × Val)
  | 0, _, _, _, _ => .error "FUEL"
  | fuel + 1, h, defaults, source, opts =>
    if ¬ (defaults.truthy ∧ defaults.isObjTypeof) then
      .error "Invalid defaults value: must be an object"
    else if ¬ (source.truthy = false ∨ source = .prim (.bool true) ∨ source.isObjTypeof) then
      .error "Invalid source value: must be true, falsy or an object"
    else if source.truthy = false then .ok (h, .prim .null)
    else
      match opts.shallow with
      | .top => .error "Invalid keys"
      | .keys ks =>
        -- internals.applyToDefaultsWithShallow
        match clone fuel h defaults { shallow := .keys ks } none with
        | .error e => .error e
        | .ok (h1, copy, _) =>
          if source = .prim (.bool true) then .ok (h1, copy)
          else
            match store h1 source ks with
            | none => .error "TypeError"
            | some (h2, storage) =>
              match merge fuel h2 copy source { mergeArrays := some false, nullOverride := some false } with
              | .error e => .error e
              | .ok (h3, _) =>
                match restore h3 copy source storage with
                | none => .error "TypeError"
                | some h4 => .ok (h4, copy)
      | .no =>
        match clone fuel h defaults {} none with
        | .error e => .error e
        | .ok (h1, copy, _) =>
          if source = .prim (.bool true) then .ok (h1, copy)
          else
            merge fuel h1 copy source
              { nullOverride := some (opts.nullOverride.getD false), mergeArrays := some false }

/-- The options recognised by `exports.contain` in the modelled
universe; `deep` (deep-equality comparison) and `symbols` are outside
the model, so the element comparison is always `===`. -/
structure ContainOptions where
  once : Bool := false
  only : Bool := false
  part : Bool := false
deriving DecidableEq, Repr

/-- `list.indexOf(x)` as an optional index of the first `===` match. -/
def idxOf {α : Type} [DecidableEq α] : List α → α → Option Nat
  | [], _ => none
  | v :: vs, x => if v = x then some 0 else (idxOf vs x).map (· + 1)

/-- Increment one slot of the match tally. -/
def tallyInc (ms : List Nat) (i : Nat) : List Nat :=
  ms.set i (ms.getD i 0 + 1)

/-- The single left-to-right scan the string branch of `exports.contain`
performs with its alternation regex: at each position the first
(pattern-order) requested substring that matches is counted — under the
slot of its first textual occurrence, as `values.indexOf($1)` does —
and its span removed; an unmatched character becomes leftover input.
Modelled for non-empty requested substrings (an empty string in the
pattern is outside the model).  Fuel is `s.length + 1`, enough for the
whole scan. -/
def containStrLoop : Nat → List String → String → List Nat → Bool → List Nat × Bool
  | 0, _, _, ms, misses => (ms, misses)
  | fuel + 1, values, s, ms, misses =>
    if s = "" then (ms, misses)
    else
      match values.find? (fun v => v ≠ "" && v.isPrefixOf s) with
      | some v =>
        containStrLoop fuel values (s.drop v.length)
          (tallyInc ms ((idxOf values v).getD 0)) misses
      | none => containStrLoop fuel values (s.drop 1) ms true

/-- The inner candidate scan of the sequence branch: the first
still-eligible candidate (`!onlyOnce || matches[j] === 0`) comparing
`===` to the reference element. -/
def findEligible : List Val → List Nat → Bool → Val → Nat → Option Nat
  | [], _, _, _, _ => none
  | v :: vs, ms, onlyOnce, r, j =>
    if (¬ onlyOnce ∨ ms.getD j 0 = 0) ∧ v = r then some j
    else findEligible vs ms onlyOnce r (j + 1)

/-- The sequence-reference loop of `exports.contain`: tally the first
eligible matching candidate for each reference element, else flag
unmatched input. -/
def containArrLoop (values : List Val) (onlyOnce : Bool) : List Val → List Nat → Bool → List Nat × Bool
  | [], ms, misses => (ms, misses)
  | r :: rs, ms, misses =>
    match findEligible values ms onlyOnce r 0 with
    | some j => containArrLoop values onlyOnce rs (tallyInc ms j) misses
    | none => containArrLoop values onlyOnce rs ms true

/-- The record-reference loop of `exports.contain`: for each own key of
the reference, tally it if requested (failing the whole call, `none`,
on a key-value pair mismatch), else flag unmatched input. -/
def containKeysLoop (h : Heap) (a : Nat) (values : List Val) (pairs : Option (List (String × Val))) : List String → List Nat → Bool → Option (List Nat × Bool)
  | [], ms, misses => some (ms, misses)
  | k :: ks, ms, misses =>
    match idxOf values (.prim (.str k)) with
    | some pos =>
      match pairs with
      | some ps =>
        if (getField ps k).getD (.prim .undef) = getProp h (.ref a) k then
          containKeysLoop h a values pairs ks (tallyInc ms pos) misses
        else none
      | none => containKeysLoop h a values pairs ks (tallyInc ms pos) misses
    | none => containKeysLoop h a values pairs ks ms true

/-- The tally scan closing `exports.contain` (lines 474-484): the
verdict accumulates "some slot is non-zero", returning false
immediately if `once` is requested and a slot exceeds one, or `part` is
not requested and a slot is zero. -/
def verdictLoop (opts : ContainOptions) : List Nat → Bool → Bool
  | [], result => result
  | m :: ms, result =>
    let result := result || (m != 0)
    if (opts.once && decide (m > 1)) || (!opts.part && decide (m = 0)) then false
    else verdictLoop opts ms result

/-- The final verdict of `exports.contain` (lines 468-484), computed
from the per-candidate tally and the unmatched-input flag. -/
def containVerdict (ms : List Nat) (misses : Bool) (opts : ContainOptions) : Bool :=
  if opts.only && (misses || !opts.once) then !misses
  else verdictLoop opts ms false

/-- The body of `exports.contain` after the requested-values list (and
optional key-value pair record) has been extracted. -/
def containCore (h : Heap) (rv : Val) (values : List Val) (pairs : Option (List (String × Val))) (opts : ContainOptions) : Except String Bool :=
  if ¬ ((rv matches .prim (.str _)) ∨ rv.isObjTypeof) then
    .error "Reference must be string or an object"
  else if values.length = 0 then .error "Values array cannot be empty"
  else
    match rv with
    | .prim (.str s) =>
      if values.all (fun v => v matches .prim (.str _)) then
        let svals := values.map (fun v => match v with | .prim (.str t) => t | _ => "")
        let scan := containStrLoop (s.length + 1) svals s (List.replicate values.length 0) false
        .ok (containVerdict scan.1 scan.2 opts)
      else .error "Cannot compare string reference to non-string value"
    | .prim _ => .error "TypeError"
    | .ref a =>
      match h[a]? with
      | some (.arr relems) =>
        let onlyOnce := opts.only && opts.once
        if onlyOnce ∧ relems.length ≠ values.length then .ok false
        else
          let scan := containArrLoop values onlyOnce relems (List.replicate values.length 0) false
          .ok (containVerdict scan.1 scan.2 opts)
      | some (.record _ fs) =>
        match containKeysLoop h a values pairs (fs.map (·.1)) (List.replicate values.length 0) false with
        | none => .ok false
        | some (ms, misses) => .ok (containVerdict ms misses opts)
      | some (.date _) =>
        match containKeysLoop h a values pairs [] (List.replicate values.length 0) false with
        | none => .ok false
        | some (ms, misses) => .ok (containVerdict ms misses opts)
      | some (.regex _) =>
        match containKeysLoop h a values pairs [] (List.replicate values.length 0) false with
        | none => .ok false
        | some (ms, misses) => .ok (containVerdict ms misses opts)
      | some (.buffer _) => .error "ModelBuffer"
      | none => .error "ModelDanglingRef"

/-- `exports.contain(ref, values, options)` over the modelled universe:
an object reference against an object values record compares key-value
pairs; otherwise the values are the array's elements (or the single
value), and the reference is matched as a string, a sequence, or a
record of keys.  A `null` values record (whose `Object.keys` throws)
surfaces as `TypeError`. -/
def contain (h : Heap) (rv vv : Val) (opts : ContainOptions) : Except String Bool :=
  if rv.isObjTypeof && vv.isObjTypeof && !isArrayVal h rv && !isArrayVal h vv then
    match vv with
    | .prim _ => .error "TypeError"
    | .ref b =>
      match h[b]? with
      | some (.record _ fs) => containCore h rv (fs.map (fun p => Val.prim (.str p.1))) (some fs) opts
      | some (.date _) => containCore h rv [] (some []) opts
      | some (.regex _) => containCore h rv [] (some []) opts
      | some (.buffer _) => .error "ModelBuffer"
      | some (.arr _) => .error "ModelUnreachable"
      | none => .error "ModelDanglingRef"
  else
    let values :=
      match vv with
      | .ref b =>
        match h[b]? with
        | some (.arr es) => es
        | _ => [vv]
      | .prim _ => [vv]
    containCore h rv values none opts

/-- Shorthand for a numeric value. -/
def vnum (n : Int) : Val := .prim (.num n)

/-- Shorthand for a string value. -/
def vstr (s : String) : Val := .prim (.str s)

/-- Reachability through the heap's object graph: reflexive, and
closed under following the reference values an object holds. -/
inductive Reaches (h : Heap) : Nat → Nat → Prop
  | refl (a : Nat) : Reaches h a a
  | step {a b c : Nat} {o : Obj} :
      Reaches h a b → h[b]? = some o → Val.ref c ∈ o.refsOf → Reaches h a c

/-- No object in the heap declares an immutable template. -/
def ImmutFree (h : Heap) : Prop := ∀ o ∈ h, o.immutFlag = false

instance instDecImmutFree (h : Heap) : Decidable (ImmutFree h) :=
  inferInstanceAs (Decidable (∀ o ∈ h, o.immutFlag = false))

/-- Every reference an object in `h'` holds was already held by the
object at the same address in `h`, or points at or above `L`. -/
def RefMono (L : Nat) (h h' : Heap) : Prop :=
  ∀ (a : Nat) (o' : Obj) (c : Nat), h'[a]? = some o' → Val.ref c ∈ o'.refsOf →
    (∃ o, h[a]? = some o ∧ Val.ref c ∈ o.refsOf) ∨ L ≤ c

/-- A value is a primitive or a reference at or above `L`. -/
def ValB (L : Nat) (w : Val) : Prop := ∀ c, w = .ref c → L ≤ c

/-- All seen-map targets lie at or above `L`. -/
def SeenB (L : Nat) (s : Option (List (Nat × Nat))) : Prop := ∀ p ∈ s.getD [], L ≤ p.2

/-- The heap-evolution contract of one (sub-)clone call: existing
addresses untouched, the heap only grows, immutability-freedom kept,
and new references confined above the baseline. -/
def CloneOut (L : Nat) (h h' : Heap) : Prop :=
  (∀ a, a < h.length → h'[a]? = h[a]?) ∧ h.length ≤ h'.length ∧ ImmutFree h' ∧ RefMono L h h'

/-- A record with an immutable prototype, holding one field. -/
def immutHeap : Heap := [.record true [("x", vnum 1)]]

/-- Reference `[1,2,2]` with candidates `[1,2]`. -/
def seqHeap122 : Heap := [.arr [vnum 1, vnum 2, vnum 2], .arr [vnum 1, vnum 2]]

/-- Reference `[1,2]` with candidates `[1,2]`. -/
def seqHeap12 : Heap := [.arr [vnum 1, vnum 2], .arr [vnum 1, vnum 2]]

/-- Reference `[1,1]` with candidates `[1,1]`. -/
def seqHeap11 : Heap := [.arr [vnum 1, vnum 1], .arr [vnum 1, vnum 1]]

/-- Target/source pair for the primitive-overwrite witness. -/
def mergePrimHeap : Heap := [.record false [("x", vnum 1)], .record false [("x", vnum 2)]]

/-- Target `{a:[1]}` and source `{a:[2]}` for the array-merge examples. -/
def mergeArrHeap : Heap :=
  [.record false [("a", .ref 1)], .arr [vnum 1], .record false [("a", .ref 3)], .arr [vnum 2]]

/-- Defaults `{x:1}` and source `{x:null}` for the applyToDefaults
examples. -/
def atdHeap : Heap := [.record false [("x", vnum 1)], .record false [("x", .prim .null)]]

/-- Target/source pair sharing structure: the target's `k` slot is the
source itself, so the recursive record merge writes into the source. -/
def aliasHeap : Heap :=
  [.record false [("k", .ref 1)], .record false [("k", .ref 2)], .record false [("m", vnum 1)]]

/-- Source `{p: {q:7}}` for the shallow-clone reattachment instance. -/
def shallowHeap : Heap := [.record false [("p", .ref 1)], .record false [("q", vnum 7)]]

/-- Defaults `{x:1}` and source `{x:2, p:{q:7}}` for the shallow
applyToDefaults reattachment instance. -/
def adShallowHeap : Heap :=
  [.record false [("x", vnum 1)], .record false [("x", vnum 2), ("p", .ref 2)],
   .record false [("q", vnum 7)]]

/-!  Lemmas about the embedding, followed by the claim theorems. -/

lemma getElem?_some_lt {α : Type} {l : List α} {i : Nat} {a : α} (h : l[i]? = some a) :
    i < l.length := by
  rcases List.getElem?_eq_some.mp h with ⟨hw, _⟩
  exact hw

/-- A property write never changes which addresses hold records, nor
their immutability bit. -/
lemma setProp_record_shape {h : Heap} {v : Val} {seg : String} {w : Val} {h' : Heap}
    (hs : setProp h v seg w = some h') {a : Nat} {imm : Bool} {fs : List (String × Val)}
    (ha : h[a]? = some (.record imm fs)) : ∃ fs', h'[a]? = some (.record imm fs') := by
  cases v with
  | prim p => simp [setProp] at hs
  | ref b =>
    rw [setProp] at hs
    split at hs
    · rename_i imm2 fs2 heq
      replace hs := Option.some.inj hs
      by_cases hab : a = b
      · subst hab
        rw [ha] at heq; injection heq with heq2
        injection heq2 with e1 e2
        subst e1; subst e2
        exact ⟨setFields fs seg w, by rw [← hs, List.getElem?_set_self (getElem?_some_lt ha)]⟩
      · exact ⟨fs, by rw [← hs, List.getElem?_set_ne (fun hba => hab hba.symm)]; exact ha⟩
    · rename_i es heq
      split at hs
      · rename_i i hn
        split at hs
        · rename_i hi
          replace hs := Option.some.inj hs
          have hab : a ≠ b := by
            intro e; subst e; rw [ha] at heq; exact Obj.noConfusion (Option.some.inj heq)
          exact ⟨fs, by rw [← hs, List.getElem?_set_ne (fun hba => hab hba.symm)]; exact ha⟩
        · simp at hs
      · simp at hs
    · simp at hs

/-- `reachSet` (a path of property writes) preserves record addresses
and immutability bits. -/
lemma reachSet_record_shape {h : Heap} {v : Val} {p : List String} {w : Val} {h' : Heap}
    (hs : reachSet h v p w = some h') {a : Nat} {imm : Bool} {fs : List (String × Val)}
    (ha : h[a]? = some (.record imm fs)) : ∃ fs', h'[a]? = some (.record imm fs') := by
  induction p generalizing v with
  | nil => simp only [reachSet] at hs; exact ⟨fs, by rw [← Option.some.inj hs]; exact ha⟩
  | cons seg rest ih =>
    simp only [reachSet] at hs
    cases rest with
    | nil => exact setProp_record_shape hs ha
    | cons seg2 rest2 =>
      match v with
      | .prim .undef => simp at hs
      | .prim .null => simp at hs
      | .prim (.bool b) => exact ih hs
      | .prim (.num n) => exact ih hs
      | .prim (.str s) => exact ih hs
      | .ref b => exact ih hs

/-- `internals.store` (detaching shallow paths) preserves record
addresses and immutability bits. -/
lemma store_record_shape {h : Heap} {src : Val} {ks : List (List String)} {h' : Heap}
    {st : List (List String × Val)} (hs : store h src ks = some (h', st)) {a : Nat} {imm : Bool}
    {fs : List (String × Val)} (ha : h[a]? = some (.record imm fs)) :
    ∃ fs', h'[a]? = some (.record imm fs') := by
  induction ks generalizing h st fs with
  | nil =>
    simp only [store] at hs
    cases Option.some.inj hs
    exact ⟨fs, ha⟩
  | cons k ks ih =>
    simp only [store] at hs
    by_cases hobj : (reach h src k).isObjTypeof = true
    · rw [if_pos hobj] at hs
      split at hs
      · simp at hs
      · rename_i h1 hrs
        split at hs
        · simp at hs
        · rename_i h2 st2 hst
          replace hs := Option.some.inj hs
          have he : h2 = h' := congrArg Prod.fst hs
          subst he
          obtain ⟨fs1, hfs1⟩ := reachSet_record_shape hrs ha
          exact ih hst hfs1
    · rw [if_neg hobj] at hs; exact ih hs ha

/-- The `baseProto` dispatch of `clone` at an immutable-template record
with prototype preservation on returns the source reference. -/
lemma cloneDispatch_immut {g : Nat} {h : Heap} {a : Nat} {opts : Options}
    {seen : Option (List (Nat × Nat))} {sTop : Bool} {h' : Heap} {w : Val}
    {s' : Option (List (Nat × Nat))} {fs : List (String × Val)}
    (ha : h[a]? = some (.record true fs)) (hp : opts.prototype = true)
    (hd : cloneDispatch g h a opts seen sTop = .ok (h', w, s')) : w = .ref a := by
  cases g with
  | zero => simp [cloneDispatch] at hd
  | succ g =>
    simp only [cloneDispatch, ha, hp] at hd
    simp at hd
    exact hd.2.1.symm

/-- The closing tally scan of `contain` equals its declarative
description. -/
lemma verdictLoop_spec (opts : ContainOptions) (ms : List Nat) (acc : Bool) :
    verdictLoop opts ms acc =
      ((acc || ms.any (fun m => m != 0)) &&
        !(opts.once && ms.any (fun m => decide (m > 1))) &&
        !(!opts.part && ms.any (fun m => decide (m = 0)))) := by
  induction ms generalizing acc with
  | nil => simp [verdictLoop]
  | cons m ms ih =>
    simp only [verdictLoop, List.any_cons]
    by_cases h1 : ((opts.once && decide (m > 1)) || (!opts.part && decide (m = 0))) = true
    · rw [if_pos h1]
      rcases Bool.or_eq_true_iff.mp h1 with h | h
      · rcases Bool.and_eq_true_iff.mp h with ⟨ha, hm⟩
        have hgt := of_decide_eq_true hm
        simp [ha, hm]
      · rcases Bool.and_eq_true_iff.mp h with ⟨ha, hm⟩
        have h0 := of_decide_eq_true hm
        subst h0
        simp [ha]
    · rw [if_neg h1, ih]
      have hb : (m != 0) = !(decide (m = 0)) := by by_cases h : m = 0 <;> simp [h]
      rw [hb]
      generalize decide (m = 0) = b0 at h1 ⊢
      generalize decide (m > 1) = b1 at h1 ⊢
      generalize (ms.any fun m => m != 0) = abig at h1 ⊢
      generalize (ms.any fun m => decide (m > 1)) = a1 at h1 ⊢
      generalize (ms.any fun m => decide (m = 0)) = a0 at h1 ⊢
      revert h1
      cases opts.once <;> cases opts.part <;> cases acc <;> cases b0 <;>
        cases b1 <;> cases abig <;> cases a1 <;> cases a0 <;> decide

/-- C2 (counterexample): the claim says an immutable-template value is
returned unchanged for every options value; but with
`options.prototype === false` the template check is skipped and
`clone` returns a fresh copy (address 1), not the source (address 0). -/
theorem claim_C2_counterexample :
    (clone 5 immutHeap (.ref 0) { prototype := false } none).toOption.map (fun x => x.2.1) =
      some (.ref 1) ∧ Val.ref 1 ≠ Val.ref 0 := by
  constructor
  · decide
  · decide

/-- C2 (amended): for every value whose template declares immutability,
and every options value with `prototype` not `false` (its default),
`clone` returns the identical reference, whatever the shallow mode and
remaining options. -/
theorem claim_C2 (fuel : Nat) (h : Heap) (a : Nat) (fs : List (String × Val)) (opts : Options)
    (h' : Heap) (w : Val) (s' : Option (List (Nat × Nat)))
    (ha : h[a]? = some (.record true fs)) (hp : opts.prototype = true)
    (hc : clone fuel h (.ref a) opts none = .ok (h', w, s')) : w = .ref a := by
  induction fuel generalizing h fs opts h' w s' with
  | zero => simp [clone] at hc
  | succ f ih =>
    simp only [clone] at hc
    split at hc
    · rename_i ks hks
      split at hc
      · simp at hc
      · rename_i h1 storage hst
        split at hc
        · simp at hc
        · rename_i h2 copy sx hcl
          split at hc
          · simp at hc
          · rename_i h3 hrs
            obtain ⟨fs1, hfs1⟩ := store_record_shape hst ha
            have hw := ih h1 fs1 { opts with shallow := Shallow.no } h2 copy sx hfs1 hp hcl
            simp at hc
            rw [← hc.2.1, hw]
    · exact cloneDispatch_immut ha hp hc
    · simp only [Option.getD, lookupSeen] at hc
      exact cloneDispatch_immut ha hp hc

/-- C2 witness: the amended theorem at the concrete immutable record. -/
theorem claim_C2_witness :
    (([Obj.record true []] : Heap)[0]? = some (.record true [])) ∧ Val.ref 0 = Val.ref 0 :=
  ⟨by decide,
   claim_C2 3 [.record true []] 0 [] {} [.record true []] (.ref 0) (some []) (by decide) rfl
     (by decide)⟩

/-- C6: the final verdict of `contain`, computed from the tally and the
unmatched-input flag, is exactly: when `only` is requested and
(unmatched input occurred or `once` was not requested), "no unmatched
input occurred"; otherwise true iff some tally slot is non-zero, and
false whenever `once` is requested and a slot exceeds one, or `part` is
not requested and a slot is zero. -/
theorem claim_C6 (ms : List Nat) (misses : Bool) (opts : ContainOptions) :
    containVerdict ms misses opts =
      (if opts.only && (misses || !opts.once) then !misses
       else ((ms.any (fun m => m != 0)) &&
         !(opts.once && ms.any (fun m => decide (m > 1))) &&
         !(!opts.part && ms.any (fun m => decide (m = 0))))) := by
  unfold containVerdict
  rw [verdictLoop_spec]
  simp

/-- C7: with `only` and `once` both requested on a sequence reference,
a length mismatch between the reference and the candidate list fails
immediately; `contain([1,2,2],[1,2])` is false and
`contain([1,2],[1,2])` is true under that policy; and a candidate that
has already matched once is no longer eligible, so
`contain([1,1],[1,1])` tallies both slots and is true. -/
theorem claim_C7 :
    (∀ (h : Heap) (r va : Nat) (re vl : List Val) (opts : ContainOptions),
        h[r]? = some (.arr re) → h[va]? = some (.arr vl) → vl ≠ [] →
        opts.only = true → opts.once = true → re.length ≠ vl.length →
        contain h (.ref r) (.ref va) opts = .ok false) ∧
    contain seqHeap122 (.ref 0) (.ref 1) { once := true, only := true } = .ok false ∧
    contain seqHeap12 (.ref 0) (.ref 1) { once := true, only := true } = .ok true ∧
    contain seqHeap11 (.ref 0) (.ref 1) { once := true, only := true } = .ok true := by
  refine ⟨?_, by decide, by decide, by decide⟩
  intro h r va re vl opts hr hva hvl ho hc hlen
  have hvl' : vl.length ≠ 0 := by simpa [List.length_eq_zero] using hvl
  simp [contain, containCore, isArrayVal, Val.isObjTypeof, hr, hva, hvl', ho, hc, hlen, Obj.isArr]

/-- C7 witness: the general length-mismatch part at `[1,2,2]` vs
`[1,2]`. -/
theorem claim_C7_witness :
    (seqHeap122[0]? = some (.arr [vnum 1, vnum 2, vnum 2])) ∧
    contain seqHeap122 (.ref 0) (.ref 1) { once := true, only := true } = .ok false :=
  ⟨by decide,
   claim_C7.1 seqHeap122 0 1 [vnum 1, vnum 2, vnum 2] [vnum 1, vnum 2] _ (by decide) (by decide)
     (by decide) rfl rfl (by decide)⟩

/-- C9: `merge` always returns the very reference passed as target, and
a `null` or `undefined` source is accepted as a no-op (heap and target
unchanged), not rejected. -/
theorem claim_C9 :
    (∀ (f : Nat) (h : Heap) (t s : Val) (opts : Options) (h' : Heap) (r : Val),
        merge f h t s opts = .ok (h', r) → r = t) ∧
    (∀ (f : Nat) (h : Heap) (t : Val) (opts : Options),
        t.truthy = true → t.isObjTypeof = true →
        merge (f + 1) h t (.prim .null) opts = .ok (h, t) ∧
        merge (f + 1) h t (.prim .undef) opts = .ok (h, t)) := by
  constructor
  · intro f h t s opts h' r hm
    cases f with
    | zero => simp [merge] at hm
    | succ f =>
      simp only [merge] at hm
      split at hm
      · simp at hm
      · split at hm
        · simp at hm
        · split at hm
          · simp at hm; exact hm.2.symm
          · split at hm
            · rename_i s' t'
              split at hm
              · simp at hm
              · split at hm
                · simp at hm
                · split at hm
                  · simp at hm
                  · simp at hm; exact hm.2.symm
              · split at hm
                · simp at hm
                · simp at hm; exact hm.2.symm
            · simp at hm
  · intro f h t opts h1 h2
    constructor <;> simp [merge, h1, h2] <;> decide

/-- C9 witness: both parts at a concrete merge of `{x:2}` into `{x:1}`. -/
theorem claim_C9_witness :
    (merge 20 [.record false [("x", vnum 1)], .record false [("x", vnum 2)]]
        (.ref 0) (.ref 1) {} =
      .ok ([.record false [("x", vnum 2)], .record false [("x", vnum 2)]], .ref 0) ∧
      Val.ref 0 = Val.ref 0) ∧
    ((Val.ref 0).truthy = true ∧
      merge 3 [.record false []] (.ref 0) (.prim .null) {} = .ok ([.record false []], .ref 0) ∧
      merge 3 [.record false []] (.ref 0) (.prim .undef) {} = .ok ([.record false []], .ref 0)) :=
  ⟨⟨by decide,
    claim_C9.1 20 [.record false [("x", vnum 1)], .record false [("x", vnum 2)]] (.ref 0) (.ref 1)
      {} [.record false [("x", vnum 2)], .record false [("x", vnum 2)]] (.ref 0) (by decide)⟩,
   by decide,
   (claim_C9.2 2 [.record false []] (.ref 0) {} (by decide) (by decide)).1,
   (claim_C9.2 2 [.record false []] (.ref 0) {} (by decide) (by decide)).2⟩

/-- C10: `contain` raises the empty-values error synchronously for an
empty requested set, for every reference shape: string, sequence, and
record (against both an empty candidate array and an empty pair
record). -/
theorem claim_C10 :
    (∀ (h : Heap) (s : String) (va : Nat) (opts : ContainOptions),
        h[va]? = some (.arr []) →
        contain h (.prim (.str s)) (.ref va) opts = .error "Values array cannot be empty") ∧
    (∀ (h : Heap) (r va : Nat) (re : List Val) (opts : ContainOptions),
        h[r]? = some (.arr re) → h[va]? = some (.arr []) →
        contain h (.ref r) (.ref va) opts = .error "Values array cannot be empty") ∧
    (∀ (h : Heap) (r va : Nat) (imm : Bool) (fs : List (String × Val)) (opts : ContainOptions),
        h[r]? = some (.record imm fs) → h[va]? = some (.arr []) →
        contain h (.ref r) (.ref va) opts = .error "Values array cannot be empty") ∧
    (∀ (h : Heap) (r vp : Nat) (imm imm' : Bool) (fs : List (String × Val))
        (opts : ContainOptions),
        h[r]? = some (.record imm fs) → h[vp]? = some (.record imm' []) →
        contain h (.ref r) (.ref vp) opts = .error "Values array cannot be empty") := by
  refine ⟨?_, ?_, ?_, ?_⟩
  · intro h s va opts hva
    simp [contain, containCore, isArrayVal, Val.isObjTypeof, hva, Obj.isArr]
  · intro h r va re opts hr hva
    simp [contain, containCore, isArrayVal, Val.isObjTypeof, hr, hva, Obj.isArr]
  · intro h r va imm fs opts hr hva
    simp [contain, containCore, isArrayVal, Val.isObjTypeof, hr, hva, Obj.isArr]
  · intro h r vp imm imm' fs opts hr hvp
    simp [contain, containCore, isArrayVal, Val.isObjTypeof, hr, hvp, Obj.isArr]

/-- C10 witness: all four shapes at concrete empty requested sets. -/
theorem claim_C10_witness :
    (([Obj.arr []] : Heap)[0]? = some (.arr []) ∧
      contain [.arr []] (.prim (.str "ab")) (.ref 0) {} = .error "Values array cannot be empty") ∧
    (contain [.arr [vnum 1], .arr []] (.ref 0) (.ref 1) {} =
      .error "Values array cannot be empty") ∧
    (contain [.record false [("a", vnum 1)], .arr []] (.ref 0) (.ref 1) {} =
      .error "Values array cannot be empty") ∧
    (contain [.record false [("a", vnum 1)], .record false []] (.ref 0) (.ref 1) {} =
      .error "Values array cannot be empty") :=
  ⟨⟨by decide, claim_C10.1 [.arr []] "ab" 0 {} (by decide)⟩,
   claim_C10.2.1 [.arr [vnum 1], .arr []] 0 1 [vnum 1] {} (by decide) (by decide),
   claim_C10.2.2.1 [.record false [("a", vnum 1)], .arr []] 0 1 false [("a", vnum 1)] {}
     (by decide) (by decide),
   claim_C10.2.2.2 [.record false [("a", vnum 1)], .record false []] 0 1 false false
     [("a", vnum 1)] {} (by decide) (by decide)⟩

/-- Cloning a primitive is the identity (heap and seen untouched). -/
lemma clone_prim {g : Nat} {h : Heap} {p : Prim} {opts : Options}
    {seen : Option (List (Nat × Nat))} {res : Heap × Val × Option (List (Nat × Nat))}
    (hc : clone g h (.prim p) opts seen = .ok res) : res = (h, .prim p, seen) := by
  cases g with
  | zero => simp [clone] at hc
  | succ g => simp only [clone] at hc; exact (Except.ok.inj hc).symm

/-- The element loop of an array merge appends a copy of every
remaining source element (source elements restricted to primitives,
whose clones are themselves). -/
lemma mergeArrLoop_append {f : Nat} {h : Heap} {t s : Nat} {i : Nat} {acc se : List Val}
    {opts : Options} {h' : Heap}
    (hs : h[s]? = some (.arr se)) (ht : h[t]? = some (.arr acc)) (hts : t ≠ s)
    (hp : ∀ v ∈ se, v.isPrim = true)
    (hm : mergeArrLoop f h t s i opts = .ok h') :
    h'[t]? = some (.arr (acc ++ se.drop i)) := by
  induction f generalizing h i acc with
  | zero => simp [mergeArrLoop] at hm
  | succ f ih =>
    simp only [mergeArrLoop, hs] at hm
    split at hm
    · rename_i hnone
      have hle : se.length ≤ i := List.getElem?_eq_none_iff.mp hnone
      rw [List.drop_eq_nil_of_le hle, List.append_nil]
      rw [← Except.ok.inj hm]
      exact ht
    · rename_i v hv
      split at hm
      · simp at hm
      · rename_i h1 cv sx hcl
        obtain ⟨p, hpv⟩ : ∃ p, v = .prim p := by
          have := hp v (List.getElem?_mem hv)
          cases v with
          | prim p => exact ⟨p, rfl⟩
          | ref a => simp [Val.isPrim] at this
        subst hpv
        have hres := clone_prim hcl
        have e1 : h1 = h := congrArg Prod.fst hres
        have e2 : cv = .prim p := congrArg (fun x => x.2.1) hres
        rw [e1, e2, ht] at hm
        simp only [] at hm
        have hlt : t < h.length := getElem?_some_lt ht
        have hs1 : (h.set t (.arr (acc ++ [Val.prim p])))[s]? = some (.arr se) := by
          rw [List.getElem?_set_ne hts]; exact hs
        have ht1 : (h.set t (.arr (acc ++ [Val.prim p])))[t]? =
            some (.arr (acc ++ [Val.prim p])) := by
          rw [List.getElem?_set_self hlt]
        have hrec := ih hs1 ht1 hm
        rw [hrec]
        have hilt : i < se.length := by
          rcases List.getElem?_eq_some.mp hv with ⟨hw, _⟩; exact hw
        have hdrop : se.drop i = se[i] :: se.drop (i + 1) := List.drop_eq_getElem_cons hilt
        have hvi : se[i] = Val.prim p := by
          rcases List.getElem?_eq_some.mp hv with ⟨_, he⟩; exact he
        rw [hdrop, hvi, List.append_assoc]
        rfl

/-- C4: merging a source whose (single own enumerable) key holds a
primitive: a non-null, non-undefined value always overwrites the
target slot; `null`/`undefined` overwrite exactly when `nullOverride`
is true (the plain-merge default), and otherwise leave the target
untouched. -/
theorem claim_C4 (f : Nat) (h : Heap) (t s : Nat) (it isb : Bool) (tf : List (String × Val))
    (k : String) (p : Prim) (opts : Options)
    (ht : h[t]? = some (.record it tf)) (hs : h[s]? = some (.record isb [(k, .prim p)]))
    (hk : k ≠ "__proto__") :
    merge (f + 3) h (.ref t) (.ref s) opts =
      .ok ((if (p ≠ Prim.null ∧ p ≠ Prim.undef) ∨ opts.nullOverride.getD true = true
            then h.set t (.record it (setFields tf k (.prim p))) else h), .ref t) := by
  have e3 : f + 3 = (f + 2) + 1 := rfl
  have e2 : f + 2 = (f + 1) + 1 := rfl
  rw [e3]
  simp only [merge]
  cases p with
  | null =>
    simp [Val.truthy, Prim.truthy, Val.isObjTypeof, hs, sourceKeys, resolveMergeOpts, e2,
      mergeKeys, hk, getProp, getField, setProp, ht]
    cases hno : opts.nullOverride.getD true <;> simp [hno, mergeKeys]
  | undef =>
    simp [Val.truthy, Prim.truthy, Val.isObjTypeof, hs, sourceKeys, resolveMergeOpts, e2,
      mergeKeys, hk, getProp, getField, setProp, ht]
    cases hno : opts.nullOverride.getD true <;> simp [hno, mergeKeys]
  | bool b =>
    simp [Val.truthy, Prim.truthy, Val.isObjTypeof, hs, sourceKeys, resolveMergeOpts, e2,
      mergeKeys, hk, getProp, getField, setProp, ht]
  | num n =>
    simp [Val.truthy, Prim.truthy, Val.isObjTypeof, hs, sourceKeys, resolveMergeOpts, e2,
      mergeKeys, hk, getProp, getField, setProp, ht]
  | str sv =>
    simp [Val.truthy, Prim.truthy, Val.isObjTypeof, hs, sourceKeys, resolveMergeOpts, e2,
      mergeKeys, hk, getProp, getField, setProp, ht]

/-- C4 witness: overwriting `{x:1}` with `{x:2}` through the theorem. -/
theorem claim_C4_witness :
    (mergePrimHeap[0]? = some (.record false [("x", vnum 1)])) ∧
    (mergePrimHeap[1]? = some (.record false [("x", vnum 2)])) ∧
    ("x" : String) ≠ "__proto__" ∧
    merge 3 mergePrimHeap (.ref 0) (.ref 1) {} =
      .ok ((if (Prim.num 2 ≠ Prim.null ∧ Prim.num 2 ≠ Prim.undef) ∨
              ({} : Options).nullOverride.getD true = true
            then mergePrimHeap.set 0 (.record false (setFields [("x", vnum 1)] "x" (.prim (.num 2))))
            else mergePrimHeap), .ref 0) :=
  ⟨by decide, by decide, by decide,
   claim_C4 0 mergePrimHeap 0 1 false false [("x", vnum 1)] "x" (.num 2) {} (by decide)
     (by decide) (by decide)⟩

/-- C5: an array source requires an array target (else the
`InvalidArgument` error); the target array is truncated first when
`mergeArrays` is false; every source element is cloned and appended in
order, so `merge({a:[1]},{a:[2]})` gives `{a:[1,2]}` by default and
`{a:[2]}` with `mergeArrays:false`. -/
theorem claim_C5 :
    (∀ (f : Nat) (h : Heap) (t s : Nat) (se : List Val) (o : Obj) (opts : Options),
        h[s]? = some (.arr se) → h[t]? = some o → o.isArr = false →
        merge (f + 1) h (.ref t) (.ref s) opts = .error "Cannot merge array onto an object") ∧
    (∀ (f : Nat) (h : Heap) (t s : Nat) (te se : List Val) (opts : Options) (h' : Heap) (r : Val),
        h[t]? = some (.arr te) → h[s]? = some (.arr se) → t ≠ s →
        (∀ v ∈ se, v.isPrim = true) →
        merge f h (.ref t) (.ref s) opts = .ok (h', r) →
        h'[t]? = some (.arr ((if opts.mergeArrays.getD true then te else []) ++ se))) ∧
    merge 20 mergeArrHeap (.ref 0) (.ref 2) {} =
      .ok ([.record false [("a", .ref 1)], .arr [vnum 1, vnum 2],
            .record false [("a", .ref 3)], .arr [vnum 2]], .ref 0) ∧
    merge 20 mergeArrHeap (.ref 0) (.ref 2) { mergeArrays := some false } =
      .ok ([.record false [("a", .ref 1)], .arr [vnum 2],
            .record false [("a", .ref 3)], .arr [vnum 2]], .ref 0) := by
  refine ⟨?_, ?_, by decide, by decide⟩
  · intro f h t s se o opts hs ht ho
    simp [merge, Val.truthy, Val.isObjTypeof, hs, isArrayVal, ht, ho]
  · intro f h t s te se opts h' r ht hs hts hp hm
    cases f with
    | zero => simp [merge] at hm
    | succ f =>
      simp [merge, Val.truthy, Val.isObjTypeof, hs, isArrayVal, ht, Obj.isArr,
        resolveMergeOpts] at hm
      cases hma : opts.mergeArrays.getD true <;> rw [hma] at hm <;> simp at hm
      · split at hm
        · simp at hm
        · rename_i h2 hloop
          have hs1 : (h.set t (.arr []))[s]? = some (.arr se) := by
            rw [List.getElem?_set_ne hts]; exact hs
          have ht1 : (h.set t (.arr []))[t]? = some (.arr []) := by
            rw [List.getElem?_set_self (getElem?_some_lt ht)]
          have hout := mergeArrLoop_append hs1 ht1 hts hp hloop
          have he : h2 = h' := congrArg Prod.fst (Except.ok.inj hm)
          rw [← he, hout]
          simp
      · split at hm
        · simp at hm
        · rename_i h2 hloop
          have hout := mergeArrLoop_append hs ht hts hp hloop
          have he : h2 = h' := congrArg Prod.fst (Except.ok.inj hm)
          rw [← he, hout]
          simp

/-- C5 witness: the error part at `merge({},[1])` and the append part
at `merge([1],[2])` with default options. -/
theorem claim_C5_witness :
    (([Obj.record false [], .arr [vnum 1]] : Heap)[1]? = some (.arr [vnum 1]) ∧
      merge 1 [.record false [], .arr [vnum 1]] (.ref 0) (.ref 1) {} =
        .error "Cannot merge array onto an object") ∧
    (([Obj.arr [vnum 1], .arr [vnum 2]] : Heap)[0]? = some (.arr [vnum 1]) ∧
      merge 20 [.arr [vnum 1], .arr [vnum 2]] (.ref 0) (.ref 1) {} =
        .ok ([.arr [vnum 1, vnum 2], .arr [vnum 2]], .ref 0) ∧
      ([Obj.arr [vnum 1, vnum 2], .arr [vnum 2]] : Heap)[0]? =
        some (.arr ((if ({} : Options).mergeArrays.getD true then [vnum 1] else []) ++ [vnum 2]))) :=
  ⟨⟨by decide,
    claim_C5.1 0 [.record false [], .arr [vnum 1]] 0 1 [vnum 1] (.record false []) {} (by decide)
      (by decide) (by decide)⟩,
   by decide, by decide,
   claim_C5.2.1 20 [.arr [vnum 1], .arr [vnum 2]] 0 1 [vnum 1] [vnum 2] {}
     [.arr [vnum 1, vnum 2], .arr [vnum 2]] (.ref 0) (by decide) (by decide) (by decide)
     (by decide) (by decide)⟩

/-- C1: within one (deep) clone call a revisited source reference
resolves to the previously produced target: cloning the
self-referential record `a` with `a.self = a` yields a copy `c` with
`c.self === c` (under the immutability short-circuit `c` is `a` itself
and the property again points at `c`), and two fields aliasing one
child in the source alias one child in the copy. -/
theorem claim_C1 (f : Nat) (opts : Options) (imm : Bool) (hsh : opts.shallow = .no) :
    (∃ (h' : Heap) (c : Nat) (s' : Option (List (Nat × Nat))),
        clone (f + 7) [.record imm [("self", .ref 0)]] (.ref 0) opts none = .ok (h', .ref c, s') ∧
        getProp h' (.ref c) "self" = .ref c) ∧
    (∃ (h' : Heap) (c d : Nat) (s' : Option (List (Nat × Nat))),
        clone (f + 7) [.record false [("x", .ref 1), ("y", .ref 1)],
            .record false [("v", vnum 5)]] (.ref 0) opts none = .ok (h', .ref c, s') ∧
        getProp h' (.ref c) "x" = .ref d ∧ getProp h' (.ref c) "y" = .ref d) := by
  obtain ⟨sh, proto, symb, no, ma⟩ := opts
  simp only [Options.shallow] at hsh
  subst hsh
  constructor
  · cases imm <;> cases proto <;>
      simp [vnum, clone, cloneDispatch, cloneFields, lookupSeen, getProp, getField, setProp,
        setFields] <;>
      exact ⟨_, _, ⟨rfl, rfl⟩, rfl⟩
  · cases proto <;>
      simp [vnum, clone, cloneDispatch, cloneFields, lookupSeen, getProp, getField, setProp,
        setFields] <;>
      exact ⟨_, _, ⟨rfl, rfl⟩, _, rfl, rfl⟩

/-- C1 witness: the theorem at default options and a mutable template. -/
theorem claim_C1_witness :
    (({} : Options).shallow = Shallow.no) ∧
    ((∃ (h' : Heap) (c : Nat) (s' : Option (List (Nat × Nat))),
        clone (0 + 7) [.record false [("self", .ref 0)]] (.ref 0) {} none = .ok (h', .ref c, s') ∧
        getProp h' (.ref c) "self" = .ref c) ∧
     (∃ (h' : Heap) (c d : Nat) (s' : Option (List (Nat × Nat))),
        clone (0 + 7) [.record false [("x", .ref 1), ("y", .ref 1)],
            .record false [("v", vnum 5)]] (.ref 0) {} none = .ok (h', .ref c, s') ∧
        getProp h' (.ref c) "x" = .ref d ∧ getProp h' (.ref c) "y" = .ref d)) :=
  ⟨rfl, claim_C1 0 {} false rfl⟩

/-- C3 (counterexample): the claim says `nullOverride` defaults to
false "unless the caller explicitly sets nullOverride to true —
including in the shallow-keys variant"; but the shallow variant
hard-codes `nullOverride:false`, so even with `{nullOverride:true,
shallow:[["zz"]]}` the cloned default `x:1` survives the source's
`x:null` (the claim predicts `x:null`). -/
theorem claim_C3_counterexample :
    applyToDefaults 20 atdHeap (.ref 0) (.ref 1)
        { nullOverride := some true, shallow := .keys [["zz"]] } =
      .ok (atdHeap ++ [.record false [("x", vnum 1)]], .ref 2) ∧
    getProp (atdHeap ++ [.record false [("x", vnum 1)]]) (.ref 2) "x" = vnum 1 ∧
    vnum 1 ≠ .prim .null := by
  refine ⟨by decide, by decide, by decide⟩

/-- C3 (amended): `applyToDefaults` returns `null` for every falsy
source; returns a plain deep clone of the defaults for
`source === true`; otherwise clones and merges with `mergeArrays`
forced to false and `nullOverride` defaulting to false — but the
shallow-keys variant always uses `nullOverride:false`, ignoring the
caller's `nullOverride` option entirely. -/
theorem claim_C3 :
    (∀ (f : Nat) (h : Heap) (d src : Val) (opts : Options),
        d.truthy = true → d.isObjTypeof = true → src.truthy = false →
        applyToDefaults (f + 1) h d src opts = .ok (h, .prim .null)) ∧
    (∀ (f : Nat) (h : Heap) (d : Val) (opts : Options),
        opts.shallow = .no → d.truthy = true → d.isObjTypeof = true →
        applyToDefaults (f + 1) h d (.prim (.bool true)) opts =
          (clone f h d {} none).map (fun x => (x.1, x.2.1))) ∧
    (∀ (f : Nat) (h : Heap) (d s : Val) (opts : Options) (ks : List (List String))
        (nv : Option Bool),
        opts.shallow = .keys ks →
        applyToDefaults f h d s opts = applyToDefaults f h d s { opts with nullOverride := nv }) ∧
    applyToDefaults 20 atdHeap (.ref 0) (.ref 1) {} =
      .ok (atdHeap ++ [.record false [("x", vnum 1)]], .ref 2) ∧
    applyToDefaults 20 atdHeap (.ref 0) (.ref 1) { nullOverride := some true } =
      .ok (atdHeap ++ [.record false [("x", .prim .null)]], .ref 2) ∧
    applyToDefaults 20 mergeArrHeap (.ref 0) (.ref 2) {} =
      .ok (mergeArrHeap ++ [.record false [("a", .ref 5)], .arr [vnum 2]], .ref 4) := by
  refine ⟨?_, ?_, ?_, by decide, by decide, by decide⟩
  · intro f h d src opts h1 h2 h3
    simp [applyToDefaults, h1, h2, h3]
  · intro f h d opts hsh h1 h2
    simp only [applyToDefaults, hsh, h1, h2]
    cases hc : clone f h d {} none with
    | error e => simp [h1, h2, Val.truthy, Prim.truthy, hc, Except.map]
    | ok x => obtain ⟨ha, hb, hcc⟩ := x; simp [h1, h2, Val.truthy, Prim.truthy, hc, Except.map]
  · intro f h d s opts ks nv hsh
    cases f with
    | zero => rfl
    | succ f => simp only [applyToDefaults, hsh]

/-- C3 witness: the general parts at concrete inputs (falsy source,
`source === true`, and nullOverride irrelevance under shallow keys). -/
theorem claim_C3_witness :
    ((Val.ref 0).truthy = true ∧ (Val.prim (Prim.bool false)).truthy = false ∧
      applyToDefaults 3 [.record false []] (.ref 0) (.prim (.bool false)) {} =
        .ok ([.record false []], .prim .null)) ∧
    (({} : Options).shallow = Shallow.no ∧
      applyToDefaults 6 [.record false []] (.ref 0) (.prim (.bool true)) {} =
        (clone 5 [.record false []] (.ref 0) {} none).map (fun x => (x.1, x.2.1))) ∧
    (Options.shallow { shallow := Shallow.keys [["zz"]] } = .keys [["zz"]] ∧
      applyToDefaults 20 atdHeap (.ref 0) (.ref 1) { shallow := .keys [["zz"]] } =
        applyToDefaults 20 atdHeap (.ref 0) (.ref 1)
          { shallow := .keys [["zz"]], nullOverride := some true }) :=
  ⟨⟨by decide, by decide, claim_C3.1 2 [.record false []] (.ref 0) (.prim (.bool false)) {}
      (by decide) (by decide) (by decide)⟩,
   ⟨rfl, claim_C3.2.1 5 [.record false []] (.ref 0) {} rfl (by decide) (by decide)⟩,
   ⟨rfl, claim_C3.2.2.1 20 atdHeap (.ref 0) (.ref 1) { shallow := .keys [["zz"]] } [["zz"]]
      (some true) rfl⟩⟩

lemma RefMono_refl (L : Nat) (h : Heap) : RefMono L h h := fun _ o' _ ho hc => .inl ⟨o', ho, hc⟩

lemma RefMono_trans {L : Nat} {h1 h2 h3 : Heap} (m1 : RefMono L h1 h2) (m2 : RefMono L h2 h3) :
    RefMono L h1 h3 := by
  intro a o' c ho hc
  rcases m2 a o' c ho hc with ⟨o2, ho2, hc2⟩ | hL
  · exact m1 a o2 c ho2 hc2
  · exact .inr hL

lemma RefMono_weaken {L L' : Nat} {h h' : Heap} (hle : L ≤ L') (m : RefMono L' h h') :
    RefMono L h h' := by
  intro a o' c ho hc
  rcases m a o' c ho hc with hold | hL
  · exact .inl hold
  · exact .inr (le_trans hle hL)

lemma Reaches_trans {h : Heap} {a b c : Nat} (r1 : Reaches h a b) (r2 : Reaches h b c) :
    Reaches h a c := by
  induction r2 with
  | refl => exact r1
  | step rb ho hm ih => exact .step ih ho hm

/-- With baseline the heap's own length, reachability in an evolved
heap collapses to old reachability or fresh addresses. -/
lemma reach_closure {h h' : Heap} (m : RefMono h.length h h') {t a : Nat}
    (hr : Reaches h' t a) : Reaches h t a ∨ h.length ≤ a := by
  induction hr with
  | refl => exact .inl (.refl _)
  | step rb ho hm ih =>
    rename_i b c o
    rcases m b o c ho hm with ⟨o2, ho2, hc2⟩ | hL
    · rcases ih with hold | hfresh
      · exact .inl (.step hold ho2 hc2)
      · exact absurd (getElem?_some_lt ho2) (by omega)
    · exact .inr hL

/-- Updating one slot: frame, length, immutability and reference
monotonicity in one package. -/
lemma set_frame {L : Nat} {h : Heap} {n : Nat} {o o' : Obj} (hn : h[n]? = some o)
    (hrefs : ∀ c, Val.ref c ∈ o'.refsOf → Val.ref c ∈ o.refsOf ∨ L ≤ c)
    (himm : o'.immutFlag = o.immutFlag) :
    (∀ a, a ≠ n → (h.set n o')[a]? = h[a]?) ∧ (h.set n o').length = h.length ∧
    (ImmutFree h → ImmutFree (h.set n o')) ∧ RefMono L h (h.set n o') ∧
    (h.set n o')[n]? = some o' := by
  have hlt : n < h.length := getElem?_some_lt hn
  refine ⟨fun a ha => List.getElem?_set_ne (fun e => ha e.symm), List.length_set .., ?_, ?_, ?_⟩
  · intro hf o2 ho2
    rcases List.mem_or_eq_of_mem_set ho2 with hmem | rfl
    · exact hf o2 hmem
    · rw [himm]; exact hf o (List.getElem?_mem hn)
  · intro a o2 c ho2 hc2
    by_cases ha : a = n
    · subst ha
      rw [List.getElem?_set_self hlt] at ho2
      cases Option.some.inj ho2
      rcases hrefs c hc2 with hold | hL
      · exact .inl ⟨o, hn, hold⟩
      · exact .inr hL
    · rw [List.getElem?_set_ne (fun e => ha e.symm)] at ho2
      exact .inl ⟨o2, ho2, hc2⟩
  · rw [List.getElem?_set_self hlt]

/-- Appending a reference-free object: frame and monotonicity. -/
lemma append_frame {L : Nat} {h : Heap} {o : Obj} (hrefs : o.refsOf = [])
    (himm : o.immutFlag = false) :
    (∀ a, a < h.length → (h ++ [o])[a]? = h[a]?) ∧ (h ++ [o]).length = h.length + 1 ∧
    (ImmutFree h → ImmutFree (h ++ [o])) ∧ RefMono L h (h ++ [o]) := by
  refine ⟨fun a ha => List.getElem?_append_left ha, by simp, ?_, ?_⟩
  · intro hf o2 ho2
    rcases List.mem_append.mp ho2 with hmem | hmem
    · exact hf o2 hmem
    · rw [List.mem_singleton.mp hmem]; exact himm
  · intro a o2 c ho2 hc2
    by_cases ha : a < h.length
    · rw [List.getElem?_append_left ha] at ho2
      exact .inl ⟨o2, ho2, hc2⟩
    · have : a = h.length := by
        have := getElem?_some_lt ho2
        simp at this
        omega
      subst this
      rw [List.getElem?_append_right (le_refl _)] at ho2
      simp at ho2
      rw [← ho2] at hc2
      rw [hrefs] at hc2
      simp at hc2

/-- Values of an updated field list come from the old list or are the
written value. -/
lemma setFields_refs {fs : List (String × Val)} {k : String} {v w : Val}
    (hw : w ∈ (setFields fs k v).map (·.2)) : w ∈ fs.map (·.2) ∨ w = v := by
  induction fs with
  | nil => simp [setFields] at hw; exact .inr hw
  | cons p rest ih =>
    rw [setFields] at hw
    by_cases he : p.1 = k
    · rw [if_pos he] at hw
      simp at hw
      rcases hw with hv | hmem
      · exact .inr hv
      · exact .inl (by simp [hmem])
    · rw [if_neg he] at hw
      simp at hw
      rcases hw with hv | hmem
      · exact .inl (by simp [hv])
      · rcases ih (by simpa using hmem) with hold | hv
        · exact .inl (by simp at hold ⊢; exact .inr hold)
        · exact .inr hv

/-- Reading a reference-valued property is one reachability step. -/
lemma getProp_ref_step {h : Heap} {t : Nat} {k : String} {u : Nat}
    (hg : getProp h (.ref t) k = .ref u) : ∃ o, h[t]? = some o ∧ Val.ref u ∈ o.refsOf := by
  rw [getProp] at hg
  split at hg
  · rename_i imm fs heq
    refine ⟨_, heq, ?_⟩
    simp [Obj.refsOf]
    cases hf : getField fs k with
    | none => rw [hf] at hg; simp at hg
    | some v =>
      rw [hf] at hg
      simp at hg
      subst hg
      -- getField found the value in the list
      refine ⟨k, ?_⟩
      clear heq
      induction fs with
      | nil => simp [getField] at hf
      | cons p rest ih =>
        rw [getField] at hf
        by_cases he : p.1 = k
        · rw [if_pos he] at hf
          simp at hf
          have hp : p = (k, Val.ref u) := by
            obtain ⟨p1, p2⟩ := p
            simp at he hf
            simp [he, hf]
          rw [hp]
          exact List.mem_cons_self _ _
        · rw [if_neg he] at hf
          right
          exact ih hf
  · rename_i es heq
    split at hg
    · rename_i i hi
      refine ⟨_, heq, ?_⟩
      simp [Obj.refsOf]
      cases hv : es[i]? with
      | none => rw [hv] at hg; simp at hg
      | some v =>
        rw [hv] at hg
        simp at hg
        subst hg
        exact List.getElem?_mem hv
    · split at hg <;> simp at hg
  · simp at hg

lemma CloneOut_refl {L : Nat} {h : Heap} (hf : ImmutFree h) : CloneOut L h h :=
  ⟨fun _ _ => rfl, le_refl _, hf, RefMono_refl L h⟩

lemma CloneOut_trans {L : Nat} {h1 h2 h3 : Heap} (c1 : CloneOut L h1 h2)
    (c2 : CloneOut L h2 h3) : CloneOut L h1 h3 := by
  obtain ⟨f1, l1, i1, m1⟩ := c1
  obtain ⟨f2, l2, i2, m2⟩ := c2
  exact ⟨fun a ha => by rw [f2 a (lt_of_lt_of_le ha l1), f1 a ha], le_trans l1 l2, i2,
    RefMono_trans m1 m2⟩

lemma lookupSeen_mem {m : List (Nat × Nat)} {a t : Nat} (hl : lookupSeen m a = some t) :
    (a, t) ∈ m := by
  induction m with
  | nil => simp [lookupSeen] at hl
  | cons p rest ih =>
    rw [lookupSeen] at hl
    by_cases he : p.1 = a
    · rw [if_pos he] at hl
      obtain ⟨p1, p2⟩ := p
      simp at he hl
      simp [he, hl]
    · rw [if_neg he] at hl
      exact List.mem_cons_of_mem _ (ih hl)

/-- `setProp` on a reference target: frame, immutability and reference
monotonicity, given the written value is primitive or fresh. -/
lemma setProp_frame {L : Nat} {h : Heap} {t : Nat} {k : String} {v : Val} {h' : Heap}
    (hs : setProp h (.ref t) k v = some h') (hv : ValB L v) :
    (∀ a, a ≠ t → h'[a]? = h[a]?) ∧ h'.length = h.length ∧
    (ImmutFree h → ImmutFree h') ∧ RefMono L h h' := by
  rw [setProp] at hs
  split at hs
  · rename_i imm fs heq
    cases Option.some.inj hs
    have hrefs : ∀ c, Val.ref c ∈ (Obj.record imm (setFields fs k v)).refsOf →
        Val.ref c ∈ (Obj.record imm fs).refsOf ∨ L ≤ c := by
      intro c hc
      simp only [Obj.refsOf] at hc ⊢
      rcases setFields_refs hc with hold | hveq
      · exact .inl hold
      · exact .inr (hv c hveq.symm)
    obtain ⟨a1, a2, a3, a4, a5⟩ := set_frame heq hrefs rfl
    exact ⟨a1, a2, a3, a4⟩
  · rename_i es heq
    split at hs
    · rename_i i hi
      split at hs
      · rename_i hilt
        cases Option.some.inj hs
        have hrefs : ∀ c, Val.ref c ∈ (Obj.arr (es.set i v)).refsOf →
            Val.ref c ∈ (Obj.arr es).refsOf ∨ L ≤ c := by
          intro c hc
          simp only [Obj.refsOf] at hc ⊢
          rcases List.mem_or_eq_of_mem_set hc with hold | hveq
          · exact .inl hold
          · exact .inr (hv c hveq.symm)
        obtain ⟨a1, a2, a3, a4, a5⟩ := set_frame heq hrefs rfl
        exact ⟨a1, a2, a3, a4⟩
      · simp at hs
    · simp at hs
  · simp at hs

lemma seenB_push {L : Nat} {seen : Option (List (Nat × Nat))} {b n : Nat}
    (hsb : SeenB L seen) (hn : L ≤ n) : SeenB L (seen.map (fun m => (b, n) :: m)) := by
  intro p hp
  cases seen with
  | none => simp at hp
  | some m =>
    simp only [Option.map_some', Option.getD_some, List.mem_cons] at hp
    rcases hp with rfl | hmem
    · exact hn
    · exact hsb p (by simpa using hmem)

lemma immutFlag_at {h : Heap} (hf : ImmutFree h) {a : Nat} {imm : Bool}
    {fs : List (String × Val)} (ha : h[a]? = some (.record imm fs)) : imm = false := by
  have := hf _ (List.getElem?_mem ha)
  simpa [Obj.immutFlag] using this

lemma clone_frame_all (f : Nat) :
    (∀ {L : Nat} {h : Heap} {v : Val} {opts : Options} {seen : Option (List (Nat × Nat))}
        {h' : Heap} {w : Val} {s' : Option (List (Nat × Nat))},
        opts.shallow = .no → ImmutFree h → L ≤ h.length → SeenB L seen →
        clone f h v opts seen = .ok (h', w, s') →
        CloneOut L h h' ∧ ValB L w ∧ SeenB L s') ∧
    (∀ {L : Nat} {h : Heap} {b : Nat} {opts : Options} {seen : Option (List (Nat × Nat))}
        {h' : Heap} {w : Val} {s' : Option (List (Nat × Nat))},
        opts.shallow = .no → ImmutFree h → L ≤ h.length → SeenB L seen →
        cloneDispatch f h b opts seen false = .ok (h', w, s') →
        CloneOut L h h' ∧ ValB L w ∧ SeenB L s') ∧
    (∀ {L : Nat} {h : Heap} {n b : Nat} {ks : List String} {opts : Options}
        {seen : Option (List (Nat × Nat))} {h' : Heap} {s' : Option (List (Nat × Nat))},
        opts.shallow = .no → ImmutFree h → L ≤ h.length → SeenB L seen → n < h.length →
        cloneFields f h n b ks opts seen false = .ok (h', s') →
        (∀ a, a < h.length → a ≠ n → h'[a]? = h[a]?) ∧ h.length ≤ h'.length ∧
          ImmutFree h' ∧ RefMono L h h' ∧ SeenB L s') ∧
    (∀ {L : Nat} {h : Heap} {n : Nat} {es : List Val} {opts : Options}
        {seen : Option (List (Nat × Nat))} {h' : Heap} {s' : Option (List (Nat × Nat))},
        opts.shallow = .no → ImmutFree h → L ≤ h.length → SeenB L seen → n < h.length →
        cloneElems f h n es opts seen false = .ok (h', s') →
        (∀ a, a < h.length → a ≠ n → h'[a]? = h[a]?) ∧ h.length ≤ h'.length ∧
          ImmutFree h' ∧ RefMono L h h' ∧ SeenB L s') := by
  induction f with
  | zero =>
    refine ⟨?_, ?_, ?_, ?_⟩ <;> intros <;> rename_i hc <;>
      simp [clone, cloneDispatch, cloneFields, cloneElems] at hc
  | succ f ih =>
    obtain ⟨ihC, ihD, ihF, ihE⟩ := ih
    refine ⟨?_, ?_, ?_, ?_⟩
    · -- clone
      intro L h v opts seen h' w s' hsh hf hL hsb hc
      cases v with
      | prim p =>
        simp only [clone] at hc
        obtain ⟨e1, e2, e3⟩ : h = h' ∧ Val.prim p = w ∧ seen = s' := by
          have := Except.ok.inj hc
          exact ⟨congrArg Prod.fst this, congrArg (fun x => x.2.1) this,
            congrArg (fun x => x.2.2) this⟩
        subst e1; subst e2; subst e3
        exact ⟨CloneOut_refl hf, ⟨fun c hcv => by simp at hcv, hsb⟩⟩
      | ref a =>
        simp only [clone, hsh] at hc
        split at hc
        · rename_i tgt hlk
          obtain ⟨e1, e2, e3⟩ : h = h' ∧ Val.ref tgt = w ∧ some (seen.getD []) = s' := by
            have := Except.ok.inj hc
            exact ⟨congrArg Prod.fst this, congrArg (fun x => x.2.1) this,
              congrArg (fun x => x.2.2) this⟩
          subst e1; subst e2; subst e3
          refine ⟨CloneOut_refl hf, ?_, ?_⟩
          · intro c hcv
            cases hcv
            exact hsb _ (lookupSeen_mem hlk)
          · intro p hp
            exact hsb p (by simpa using hp)
        · rename_i hlk
          have hsb' : SeenB L (some (seen.getD [])) := fun p hp => hsb p (by simpa using hp)
          exact ihD hsh hf hL hsb' hc
    · -- cloneDispatch
      intro L h b opts seen h' w s' hsh hf hL hsb hc
      simp only [cloneDispatch] at hc
      split at hc
      · simp at hc
      · rename_i bs heq
        obtain ⟨e1, e2, e3⟩ : h ++ [Obj.buffer bs] = h' ∧ Val.ref h.length = w ∧ seen = s' := by
          have := Except.ok.inj hc
          exact ⟨congrArg Prod.fst this, congrArg (fun x => x.2.1) this,
            congrArg (fun x => x.2.2) this⟩
        subst e1; subst e2; subst e3
        obtain ⟨a1, a2, a3, a4⟩ := append_frame (L := L) (h := h) (o := .buffer bs) rfl rfl
        exact ⟨⟨a1, by omega, a3 hf, a4⟩, fun c hcv => by cases hcv; omega, hsb⟩
      · rename_i t heq
        obtain ⟨e1, e2, e3⟩ : h ++ [Obj.date t] = h' ∧ Val.ref h.length = w ∧ seen = s' := by
          have := Except.ok.inj hc
          exact ⟨congrArg Prod.fst this, congrArg (fun x => x.2.1) this,
            congrArg (fun x => x.2.2) this⟩
        subst e1; subst e2; subst e3
        obtain ⟨a1, a2, a3, a4⟩ := append_frame (L := L) (h := h) (o := .date t) rfl rfl
        exact ⟨⟨a1, by omega, a3 hf, a4⟩, fun c hcv => by cases hcv; omega, hsb⟩
      · rename_i sx heq
        obtain ⟨e1, e2, e3⟩ : h ++ [Obj.regex sx] = h' ∧ Val.ref h.length = w ∧ seen = s' := by
          have := Except.ok.inj hc
          exact ⟨congrArg Prod.fst this, congrArg (fun x => x.2.1) this,
            congrArg (fun x => x.2.2) this⟩
        subst e1; subst e2; subst e3
        obtain ⟨a1, a2, a3, a4⟩ := append_frame (L := L) (h := h) (o := .regex sx) rfl rfl
        exact ⟨⟨a1, by omega, a3 hf, a4⟩, fun c hcv => by cases hcv; omega, hsb⟩
      · rename_i es heq
        split at hc
        · simp at hc
        · rename_i h2 seen2 helems
          obtain ⟨e1, e2, e3⟩ : h2 = h' ∧ Val.ref h.length = w ∧ seen2 = s' := by
            have := Except.ok.inj hc
            exact ⟨congrArg Prod.fst this, congrArg (fun x => x.2.1) this,
              congrArg (fun x => x.2.2) this⟩
          subst e1; subst e2; subst e3
          obtain ⟨a1, a2, a3, a4⟩ := append_frame (L := L) (h := h) (o := .arr []) rfl rfl
          have hfr1 : ImmutFree (h ++ [Obj.arr []]) := a3 hf
          have hL1 : L ≤ (h ++ [Obj.arr []]).length := by simp; omega
          have hsb1 : SeenB L (seen.map (fun m => (b, h.length) :: m)) := seenB_push hsb hL
          have hn1 : h.length < (h ++ [Obj.arr []]).length := by simp
          obtain ⟨b1, b2, b3, b4, b5⟩ := ihE hsh hfr1 hL1 hsb1 hn1 helems
          refine ⟨⟨?_, ?_, b3, RefMono_trans a4 b4⟩, fun c hcv => by cases hcv; omega, b5⟩
          · intro a ha
            rw [b1 a (by simp; omega) (by omega), a1 a ha]
          · simp at b2; omega
      · rename_i imm fs heq
        have himm : imm = false := immutFlag_at hf heq
        subst himm
        simp only [Bool.false_eq_true, and_false, if_false, ite_self] at hc
        split at hc
        · simp at hc
        · rename_i h2 seen2 hfields
          obtain ⟨e1, e2, e3⟩ : h2 = h' ∧ Val.ref h.length = w ∧ seen2 = s' := by
            have := Except.ok.inj hc
            exact ⟨congrArg Prod.fst this, congrArg (fun x => x.2.1) this,
              congrArg (fun x => x.2.2) this⟩
          subst e1; subst e2; subst e3
          obtain ⟨a1, a2, a3, a4⟩ :=
            append_frame (L := L) (h := h) (o := .record false []) rfl rfl
          have hfr1 : ImmutFree (h ++ [Obj.record false []]) := a3 hf
          have hL1 : L ≤ (h ++ [Obj.record false []]).length := by simp; omega
          have hsb1 : SeenB L (seen.map (fun m => (b, h.length) :: m)) := seenB_push hsb hL
          have hn1 : h.length < (h ++ [Obj.record false []]).length := by simp
          obtain ⟨b1, b2, b3, b4, b5⟩ := ihF hsh hfr1 hL1 hsb1 hn1 hfields
          refine ⟨⟨?_, ?_, b3, RefMono_trans a4 b4⟩, fun c hcv => by cases hcv; omega, b5⟩
          · intro a ha
            rw [b1 a (by simp; omega) (by omega), a1 a ha]
          · simp at b2; omega
    · -- cloneFields
      intro L h n b ks opts seen h' s' hsh hf hL hsb hn hc
      cases ks with
      | nil =>
        simp only [cloneFields] at hc
        obtain ⟨e1, e2⟩ : h = h' ∧ seen = s' := by
          have := Except.ok.inj hc
          exact ⟨congrArg Prod.fst this, congrArg Prod.snd this⟩
        subst e1; subst e2
        exact ⟨fun a _ _ => rfl, le_refl _, hf, RefMono_refl L h, hsb⟩
      | cons k rest =>
        simp only [cloneFields, Bool.false_eq_true, if_false] at hc
        split at hc
        · simp at hc
        · rename_i h1 cv seen1 hcl
          split at hc
          · simp at hc
          · rename_i h2 hsp
            obtain ⟨⟨c1, c2, c3, c4⟩, cv5, cs6⟩ := ihC hsh hf hL hsb hcl
            obtain ⟨d1, d2, d3, d4⟩ := setProp_frame hsp cv5
            have hn2 : n < h2.length := by omega
            obtain ⟨e1b, e2b, e3b, e4b, e5b⟩ := ihF hsh (d3 c3) (by omega) cs6 hn2 hc
            refine ⟨?_, by omega, e3b, RefMono_trans c4 (RefMono_trans d4 e4b), e5b⟩
            intro a ha hann
            rw [e1b a (by omega) hann, d1 a hann, c1 a ha]
    · -- cloneElems
      intro L h n es opts seen h' s' hsh hf hL hsb hn hc
      cases es with
      | nil =>
        simp only [cloneElems] at hc
        obtain ⟨e1, e2⟩ : h = h' ∧ seen = s' := by
          have := Except.ok.inj hc
          exact ⟨congrArg Prod.fst this, congrArg Prod.snd this⟩
        subst e1; subst e2
        exact ⟨fun a _ _ => rfl, le_refl _, hf, RefMono_refl L h, hsb⟩
      | cons e rest =>
        simp only [cloneElems, Bool.false_eq_true, if_false] at hc
        split at hc
        · simp at hc
        · rename_i h1 cv seen1 hcl
          split at hc
          · rename_i cur hcur
            obtain ⟨⟨c1, c2, c3, c4⟩, cv5, cs6⟩ := ihC hsh hf hL hsb hcl
            have hrefs : ∀ c, Val.ref c ∈ (Obj.arr (cur ++ [cv])).refsOf →
                Val.ref c ∈ (Obj.arr cur).refsOf ∨ L ≤ c := by
              intro c hcv
              simp only [Obj.refsOf, List.mem_append, List.mem_singleton] at hcv
              rcases hcv with hold | hveq
              · exact .inl (by simpa [Obj.refsOf] using hold)
              · exact .inr (cv5 c hveq.symm)
            obtain ⟨d1, d2, d3, d4, d5⟩ := set_frame hcur hrefs rfl
            have hn2 : n < (h1.set n (Obj.arr (cur ++ [cv]))).length := by
              rw [d2]; omega
            obtain ⟨e1b, e2b, e3b, e4b, e5b⟩ := ihE hsh (d3 c3) (by omega) cs6 hn2 hc
            refine ⟨?_, by rw [d2] at e2b; omega, e3b,
              RefMono_trans c4 (RefMono_trans d4 e4b), e5b⟩
            intro a ha hann
            rw [e1b a (by rw [d2]; omega) hann, d1 a hann, c1 a ha]
          · simp at hc

lemma frame_compose {h h1 h2 : Heap} {t : Nat}
    (m1 : RefMono h.length h h1)
    (f1 : ∀ a, a < h.length → ¬ Reaches h t a → h1[a]? = h[a]?)
    (f2 : ∀ a, a < h1.length → ¬ Reaches h1 t a → h2[a]? = h1[a]?)
    (hlen : h.length ≤ h1.length) :
    ∀ a, a < h.length → ¬ Reaches h t a → h2[a]? = h[a]? := by
  intro a ha hr
  rw [f2 a (by omega) ?_, f1 a ha hr]
  intro hr1
  rcases reach_closure m1 hr1 with hold | hfresh
  · exact hr hold
  · omega

/-- A value that passed merge's object test is a reference. -/
lemma truthy_obj_ref {v : Val} (h1 : v.truthy = true) (h2 : v.isObjTypeof = true) :
    ∃ u, v = .ref u := by
  cases v with
  | prim p => cases p <;> simp [Val.truthy, Prim.truthy, Val.isObjTypeof] at h1 h2
  | ref u => exact ⟨u, rfl⟩

lemma isArrayVal_true {h : Heap} {t : Nat} (ha : isArrayVal h (.ref t) = true) :
    ∃ es, h[t]? = some (.arr es) := by
  rw [isArrayVal] at ha
  cases ho : h[t]? with
  | none => rw [ho] at ha; simp at ha
  | some o =>
    rw [ho] at ha
    cases o <;> simp [Obj.isArr] at ha ⊢

lemma mergeArrLoop_step {f : Nat}
    (ihA : ∀ {h : Heap} {t s i : Nat} {opts : Options} {h' : Heap},
        mergeArrLoop f h t s i opts = .ok h' → ImmutFree h →
        (∀ a, a < h.length → ¬ Reaches h t a → h'[a]? = h[a]?) ∧
        h.length ≤ h'.length ∧ ImmutFree h' ∧ RefMono h.length h h')
    (ihC : ∀ {L : Nat} {h : Heap} {v : Val} {opts : Options} {seen : Option (List (Nat × Nat))}
        {h' : Heap} {w : Val} {s' : Option (List (Nat × Nat))},
        opts.shallow = .no → ImmutFree h → L ≤ h.length → SeenB L seen →
        clone f h v opts seen = .ok (h', w, s') →
        CloneOut L h h' ∧ ValB L w ∧ SeenB L s')
    {h : Heap} {t s i : Nat} {opts : Options} {h' : Heap}
    (hm : mergeArrLoop (f + 1) h t s i opts = .ok h') (hf : ImmutFree h) :
    (∀ a, a < h.length → ¬ Reaches h t a → h'[a]? = h[a]?) ∧
    h.length ≤ h'.length ∧ ImmutFree h' ∧ RefMono h.length h h' := by
  simp only [mergeArrLoop] at hm
  split at hm
  · rename_i selems heq
    split at hm
    · -- loop done
      cases Except.ok.inj hm
      exact ⟨fun a _ _ => rfl, le_refl _, hf, RefMono_refl _ _⟩
    · rename_i v hv
      split at hm
      · simp at hm
      · rename_i h1 cv sx hcl
        split at hm
        · rename_i telems hcur
          obtain ⟨⟨c1, c2, c3, c4⟩, cv5, _⟩ := ihC rfl hf (le_refl _) (by intro p hp; simp at hp) hcl
          have hrefs : ∀ c, Val.ref c ∈ (Obj.arr (telems ++ [cv])).refsOf →
              Val.ref c ∈ (Obj.arr telems).refsOf ∨ h.length ≤ c := by
            intro c hcv
            simp only [Obj.refsOf, List.mem_append, List.mem_singleton] at hcv
            rcases hcv with hold | hveq
            · exact .inl (by simpa [Obj.refsOf] using hold)
            · exact .inr (cv5 c hveq.symm)
          obtain ⟨d1, d2, d3, d4, d5⟩ := set_frame hcur hrefs rfl
          obtain ⟨e1, e2, e3, e4⟩ := ihA hm (d3 c3)
          have g1 : ∀ a, a < h.length → ¬ Reaches h t a →
              (h1.set t (.arr (telems ++ [cv])))[a]? = h[a]? := by
            intro a ha hr
            have hat : a ≠ t := by
              intro e; subst e; exact hr (Reaches.refl a)
            rw [d1 a hat, c1 a ha]
          have hmm1 : RefMono h.length h (h1.set t (.arr (telems ++ [cv]))) :=
            RefMono_trans c4 d4
          have hlen1 : h.length ≤ (h1.set t (.arr (telems ++ [cv]))).length := by
            rw [d2]; omega
          refine ⟨frame_compose hmm1 g1 e1 hlen1, by rw [d2] at e2; omega, e3,
            RefMono_trans hmm1 (RefMono_weaken hlen1 e4)⟩
        · simp at hm
  · simp at hm

lemma write_step_compose {h h1 h2 h3 : Heap} {t : Nat}
    (c1 : ∀ a, a < h.length → h1[a]? = h[a]?) (c2 : h.length ≤ h1.length)
    (c4 : RefMono h.length h h1)
    (d1 : ∀ a, a ≠ t → h2[a]? = h1[a]?) (d2 : h2.length = h1.length)
    (d4 : RefMono h.length h1 h2)
    (e1 : ∀ a, a < h2.length → ¬ Reaches h2 t a → h3[a]? = h2[a]?)
    (e2 : h2.length ≤ h3.length) (e4 : RefMono h2.length h2 h3) :
    (∀ a, a < h.length → ¬ Reaches h t a → h3[a]? = h[a]?) ∧
    h.length ≤ h3.length ∧ RefMono h.length h h3 := by
  have g1 : ∀ a, a < h.length → ¬ Reaches h t a → h2[a]? = h[a]? := by
    intro a ha hr
    have hat : a ≠ t := fun e => by subst e; exact hr (Reaches.refl a)
    rw [d1 a hat, c1 a ha]
  have hmm1 : RefMono h.length h h2 := RefMono_trans c4 d4
  have hlen1 : h.length ≤ h2.length := by omega
  exact ⟨frame_compose hmm1 g1 e1 hlen1, by omega,
    RefMono_trans hmm1 (RefMono_weaken hlen1 e4)⟩

lemma prim_valB {L : Nat} {p : Prim} : ValB L (.prim p) := fun c hc => by simp at hc

lemma mergeKeys_step {f : Nat}
    (ihM : ∀ {h : Heap} {t : Nat} {sv : Val} {opts : Options} {h' : Heap} {rv : Val},
        merge f h (.ref t) sv opts = .ok (h', rv) → ImmutFree h →
        (∀ a, a < h.length → ¬ Reaches h t a → h'[a]? = h[a]?) ∧
        h.length ≤ h'.length ∧ ImmutFree h' ∧ RefMono h.length h h')
    (ihK : ∀ {h : Heap} {t s : Nat} {ks : List String} {opts : Options} {h' : Heap},
        mergeKeys f h t s ks opts = .ok h' → ImmutFree h →
        (∀ a, a < h.length → ¬ Reaches h t a → h'[a]? = h[a]?) ∧
        h.length ≤ h'.length ∧ ImmutFree h' ∧ RefMono h.length h h')
    (ihC : ∀ {L : Nat} {h : Heap} {v : Val} {opts : Options} {seen : Option (List (Nat × Nat))}
        {h' : Heap} {w : Val} {s' : Option (List (Nat × Nat))},
        opts.shallow = .no → ImmutFree h → L ≤ h.length → SeenB L seen →
        clone f h v opts seen = .ok (h', w, s') →
        CloneOut L h h' ∧ ValB L w ∧ SeenB L s')
    {h : Heap} {t s : Nat} {ks : List String} {opts : Options} {h' : Heap}
    (hm : mergeKeys (f + 1) h t s ks opts = .ok h') (hf : ImmutFree h) :
    (∀ a, a < h.length → ¬ Reaches h t a → h'[a]? = h[a]?) ∧
    h.length ≤ h'.length ∧ ImmutFree h' ∧ RefMono h.length h h' := by
  cases ks with
  | nil =>
    simp only [mergeKeys] at hm
    cases Except.ok.inj hm
    exact ⟨fun a _ _ => rfl, le_refl _, hf, RefMono_refl _ _⟩
  | cons k rest =>
    simp only [mergeKeys] at hm
    split at hm
    · exact ihK hm hf
    · split at hm
      · rename_i hvo
        split at hm
        · -- replace with a clone
          split at hm
          · simp at hm
          · rename_i h1 cv sx hcl
            split at hm
            · simp at hm
            · rename_i h2 hsp
              obtain ⟨⟨c1, c2, c3, c4⟩, cv5, _⟩ :=
                ihC rfl hf (le_refl _) (by intro p hp; simp at hp) hcl
              obtain ⟨d1, d2, d3, d4⟩ := setProp_frame hsp cv5
              obtain ⟨e1, e2, e3, e4⟩ := ihK hm (d3 c3)
              obtain ⟨w1, w2, w3⟩ := write_step_compose c1 c2 c4 d1 d2 d4 e1 e2 e4
              exact ⟨w1, w2, e3, w3⟩
        · -- recurse into the existing slot
          rename_i hcond
          split at hm
          · simp at hm
          · rename_i h1 rv1 hmg
            have htv : ∃ u, getProp h (.ref t) k = .ref u := by
              push_neg at hcond
              exact truthy_obj_ref hcond.1 hcond.2.1
            obtain ⟨u, htv⟩ := htv
            rw [htv] at hmg
            obtain ⟨f1, f2, f3, f4⟩ := ihM hmg hf
            obtain ⟨e1, e2, e3, e4⟩ := ihK hm f3
            have hstep : Reaches h t u := by
              obtain ⟨o, ho, hmem⟩ := getProp_ref_step htv
              exact .step (.refl t) ho hmem
            have g1 : ∀ a, a < h.length → ¬ Reaches h t a → h1[a]? = h[a]? := by
              intro a ha hr
              exact f1 a ha (fun hru => hr (Reaches_trans hstep hru))
            refine ⟨frame_compose f4 g1 e1 f2, by omega, e3,
              RefMono_trans f4 (RefMono_weaken f2 e4)⟩
      · rename_i hnvo
        have hprim : ∃ p, getProp h (.ref s) k = .prim p := by
          cases hgv : getProp h (.ref s) k with
          | prim p => exact ⟨p, rfl⟩
          | ref u =>
            rw [hgv] at hnvo
            simp [Val.truthy, Val.isObjTypeof] at hnvo
        obtain ⟨p, hprim⟩ := hprim
        split at hm
        · split at hm
          · simp at hm
          · rename_i h1 hsp
            rw [hprim] at hsp
            obtain ⟨d1, d2, d3, d4⟩ := setProp_frame hsp prim_valB
            obtain ⟨e1, e2, e3, e4⟩ := ihK hm (d3 hf)
            obtain ⟨w1, w2, w3⟩ := write_step_compose (fun a _ => rfl) (le_refl _)
              (RefMono_refl _ _) d1 d2 d4 e1 e2 e4
            exact ⟨w1, w2, e3, w3⟩
        · split at hm
          · split at hm
            · simp at hm
            · rename_i h1 hsp
              rw [hprim] at hsp
              obtain ⟨d1, d2, d3, d4⟩ := setProp_frame hsp prim_valB
              obtain ⟨e1, e2, e3, e4⟩ := ihK hm (d3 hf)
              obtain ⟨w1, w2, w3⟩ := write_step_compose (fun a _ => rfl) (le_refl _)
                (RefMono_refl _ _) d1 d2 d4 e1 e2 e4
              exact ⟨w1, w2, e3, w3⟩
          · exact ihK hm hf

lemma merge_step {f : Nat}
    (ihK : ∀ {h : Heap} {t s : Nat} {ks : List String} {opts : Options} {h' : Heap},
        mergeKeys f h t s ks opts = .ok h' → ImmutFree h →
        (∀ a, a < h.length → ¬ Reaches h t a → h'[a]? = h[a]?) ∧
        h.length ≤ h'.length ∧ ImmutFree h' ∧ RefMono h.length h h')
    (ihA : ∀ {h : Heap} {t s i : Nat} {opts : Options} {h' : Heap},
        mergeArrLoop f h t s i opts = .ok h' → ImmutFree h →
        (∀ a, a < h.length → ¬ Reaches h t a → h'[a]? = h[a]?) ∧
        h.length ≤ h'.length ∧ ImmutFree h' ∧ RefMono h.length h h')
    {h : Heap} {t : Nat} {sv : Val} {opts : Options} {h' : Heap} {rv : Val}
    (hm : merge (f + 1) h (.ref t) sv opts = .ok (h', rv)) (hf : ImmutFree h) :
    (∀ a, a < h.length → ¬ Reaches h t a → h'[a]? = h[a]?) ∧
    h.length ≤ h'.length ∧ ImmutFree h' ∧ RefMono h.length h h' := by
  simp only [merge] at hm
  split at hm
  · simp at hm
  · split at hm
    · simp at hm
    · split at hm
      · have e1 : h = h' := congrArg Prod.fst (Except.ok.inj hm)
        subst e1
        exact ⟨fun a _ _ => rfl, le_refl _, hf, RefMono_refl _ _⟩
      · split at hm
        · rename_i s0 t0 heqt c2 c3
          cases Val.ref.inj heqt
          split at hm
          · simp at hm
          · -- array source
            rename_i selems heq
            split at hm
            · simp at hm
            · rename_i hcond
              split at hm
              · simp at hm
              · rename_i h2 hloop
                have e1 : h2 = h' := congrArg Prod.fst (Except.ok.inj hm)
                subst e1
                by_cases hma : ((resolveMergeOpts opts).mergeArrays.getD true) = true
                · rw [if_pos hma] at hloop
                  exact ihA hloop hf
                · rw [if_neg hma] at hloop
                  have hiav : isArrayVal h (.ref t) = true := by
                    simpa using hcond
                  obtain ⟨telems, htel⟩ := isArrayVal_true hiav
                  rw [htel] at hloop
                  simp only [] at hloop
                  have hrefs : ∀ c, Val.ref c ∈ (Obj.arr ([] : List Val)).refsOf →
                      Val.ref c ∈ (Obj.arr telems).refsOf ∨ h.length ≤ c := by
                    intro c hc; simp [Obj.refsOf] at hc
                  obtain ⟨d1, d2, d3, d4, d5⟩ := set_frame htel hrefs rfl
                  obtain ⟨e1, e2, e3, e4⟩ := ihA hloop (d3 hf)
                  obtain ⟨w1, w2, w3⟩ := write_step_compose (fun a _ => rfl) (le_refl _)
                    (RefMono_refl _ _) d1 d2 d4 e1 e2 e4
                  exact ⟨w1, w2, e3, w3⟩
          · -- keyed source
            rename_i o heq
            split at hm
            · simp at hm
            · rename_i h2 hkeys
              have e1 : h2 = h' := congrArg Prod.fst (Except.ok.inj hm)
              subst e1
              exact ihK hkeys hf
        · simp at hm

lemma merge_frame_all (f : Nat) :
    (∀ {h : Heap} {t : Nat} {sv : Val} {opts : Options} {h' : Heap} {rv : Val},
        merge f h (.ref t) sv opts = .ok (h', rv) → ImmutFree h →
        (∀ a, a < h.length → ¬ Reaches h t a → h'[a]? = h[a]?) ∧
        h.length ≤ h'.length ∧ ImmutFree h' ∧ RefMono h.length h h') ∧
    (∀ {h : Heap} {t s : Nat} {ks : List String} {opts : Options} {h' : Heap},
        mergeKeys f h t s ks opts = .ok h' → ImmutFree h →
        (∀ a, a < h.length → ¬ Reaches h t a → h'[a]? = h[a]?) ∧
        h.length ≤ h'.length ∧ ImmutFree h' ∧ RefMono h.length h h') ∧
    (∀ {h : Heap} {t s i : Nat} {opts : Options} {h' : Heap},
        mergeArrLoop f h t s i opts = .ok h' → ImmutFree h →
        (∀ a, a < h.length → ¬ Reaches h t a → h'[a]? = h[a]?) ∧
        h.length ≤ h'.length ∧ ImmutFree h' ∧ RefMono h.length h h') := by
  induction f with
  | zero =>
    refine ⟨?_, ?_, ?_⟩ <;> intros <;> rename_i hm _ <;>
      simp [merge, mergeKeys, mergeArrLoop] at hm
  | succ f ih =>
    obtain ⟨ihM, ihK, ihA⟩ := ih
    obtain ⟨ihC, -⟩ := clone_frame_all f
    exact ⟨fun hm hf => merge_step ihK ihA hm hf,
      fun hm hf => mergeKeys_step ihM ihK ihC hm hf,
      fun hm hf => mergeArrLoop_step ihA ihC hm hf⟩

lemma reaches_norefs {h : Heap} (hn : ∀ o ∈ h, ∀ v ∈ o.refsOf, v.isPrim = true)
    {r a : Nat} (hr : Reaches h r a) : a = r := by
  induction hr with
  | refl => rfl
  | step rb ho hmem ih =>
    subst ih
    have := hn _ (List.getElem?_mem ho) _ hmem
    simp [Val.isPrim] at this

/-- C8 (counterexample): when the target's graph shares a reference
with the source — here `target.k === source` — the recursive record
merge writes through the shared reference: after
`merge({k: s}, s)` with `s = {k: {m: 1}}`, the source record has
gained an own key `m`, so merge does mutate the source graph's
structure. -/
theorem claim_C8_counterexample :
    merge 20 aliasHeap (.ref 0) (.ref 1) {} =
      .ok ([.record false [("k", .ref 1)], .record false [("k", .ref 2), ("m", vnum 1)],
            .record false [("m", vnum 1)]], .ref 0) ∧
    ([Obj.record false [("k", .ref 1)], .record false [("k", .ref 2), ("m", vnum 1)],
      .record false [("m", vnum 1)]] : Heap)[1]? ≠ aliasHeap[1]? := by
  exact ⟨by decide, by decide⟩

/-- C8 (amended): merge leaves every source-reachable address exactly
unchanged provided no address is reachable from both target and
source and no record in the heap declares an immutable template (an
immutable record can be shared by reference into the target and later
merged into); the shallow detach/reattach mechanism of clone and
applyToDefaults leaves the source addresses unchanged on successful
calls (representative instances, with the shallow slot shared). -/
theorem claim_C8 :
    (∀ (f : Nat) (h : Heap) (t s : Nat) (opts : Options) (h' : Heap) (rv : Val),
        merge f h (.ref t) (.ref s) opts = .ok (h', rv) →
        ImmutFree h →
        (∀ a, Reaches h s a → a < h.length) →
        (∀ a, Reaches h s a → ¬ Reaches h t a) →
        ∀ a, Reaches h s a → h'[a]? = h[a]?) ∧
    (clone 20 shallowHeap (.ref 0) { shallow := .keys [["p"]] } none =
        .ok (shallowHeap ++ [.record false [("p", .ref 1)]], .ref 2, none) ∧
      (shallowHeap ++ [.record false [("p", .ref 1)]])[0]? = shallowHeap[0]? ∧
      (shallowHeap ++ [.record false [("p", .ref 1)]])[1]? = shallowHeap[1]?) ∧
    (applyToDefaults 30 adShallowHeap (.ref 0) (.ref 1) { shallow := .keys [["p"]] } =
        .ok (adShallowHeap ++ [.record false [("x", vnum 2), ("p", .ref 2)]], .ref 3) ∧
      (adShallowHeap ++ [.record false [("x", vnum 2), ("p", .ref 2)]])[1]? = adShallowHeap[1]? ∧
      (adShallowHeap ++ [.record false [("x", vnum 2), ("p", .ref 2)]])[2]? = adShallowHeap[2]?) := by
  refine ⟨?_, ⟨by decide, by decide, by decide⟩, ⟨by decide, by decide, by decide⟩⟩
  intro f h t s opts h' rv hm hf hbound hdisj a ha
  exact ((merge_frame_all f).1 hm hf).1 a (hbound a ha) (hdisj a ha)

/-- C8 witness: the amended merge part at disjoint `{}` and `{x:1}`. -/
theorem claim_C8_witness :
    (ImmutFree [Obj.record false [], Obj.record false [("x", vnum 1)]]) ∧
    (∀ a, Reaches [Obj.record false [], Obj.record false [("x", vnum 1)]] 1 a →
        a < ([Obj.record false [], Obj.record false [("x", vnum 1)]] : Heap).length) ∧
    (∀ a, Reaches [Obj.record false [], Obj.record false [("x", vnum 1)]] 1 a →
        ¬ Reaches [Obj.record false [], Obj.record false [("x", vnum 1)]] 0 a) ∧
    (∀ a, Reaches [Obj.record false [], Obj.record false [("x", vnum 1)]] 1 a →
        ([Obj.record false [("x", vnum 1)], Obj.record false [("x", vnum 1)]] : Heap)[a]? =
          ([Obj.record false [], Obj.record false [("x", vnum 1)]] : Heap)[a]?) := by
  have hn : ∀ o ∈ ([Obj.record false [], Obj.record false [("x", vnum 1)]] : Heap),
      ∀ v ∈ o.refsOf, v.isPrim = true := by decide
  refine ⟨by decide, ?_, ?_, ?_⟩
  · intro a ha; rw [reaches_norefs hn ha]; decide
  · intro a ha hb
    have h1 := reaches_norefs hn ha
    have h0 := reaches_norefs hn hb
    omega
  · exact claim_C8.1 5 [Obj.record false [], Obj.record false [("x", vnum 1)]] 0 1 {}
      [Obj.record false [("x", vnum 1)], Obj.record false [("x", vnum 1)]] (.ref 0)
      (by decide) (by decide)
      (fun a ha => by rw [reaches_norefs hn ha]; decide)
      (fun a ha hb => by
        have h1 := reaches_norefs hn ha
        have h0 := reaches_norefs hn hb
        omega)

end Hoek
